import Mathlib

/-!
Verification development for the `prism` localization-drift checker
(`main.py`).  The Python code is shallowly embedded over `Str := List Char`
(Python strings are sequences of characters).  External collaborators —
the browser session, the filesystem, the Gemini remote call, the process
environment — are modelled as oracle functions supplied through
configuration records; everything the repository itself computes
(URL/locale mapping, link normalization, BFS frontier management,
device-directory grouping and matching) is translated directly from the
source.
-/

namespace Prism

/-- Python strings are modelled as lists of characters. -/
abbrev Str := List Char

/-- Literal helper: a Lean string literal viewed as a `Str`. -/
def str (s : String) : Str := s.data

/-- Python `s.rstrip("/")`: remove every trailing `'/'`. -/
def rstripSlash (s : Str) : Str := (s.reverse.dropWhile (· = '/')).reverse

/-- Python `s.strip("/")`: remove every leading and trailing `'/'`. -/
def stripSlashes (s : Str) : Str :=
  ((s.dropWhile (· = '/')).reverse.dropWhile (· = '/')).reverse

/-- Python `s.lower()` (ASCII view, which covers every string the
program manipulates). -/
def lowerStr (s : Str) : Str := s.map Char.toLower

/-- Embeds `_strip_locale_prefix(path, locale)` from `main.py`:
if `path == "/" + locale` return `"/"`; if `path` starts with
`"/" + locale + "/"` drop `len("/" + locale)` characters; otherwise
return `path` unchanged. -/
def stripLocale (path locale : Str) : Str :=
  let pfx : Str := '/' :: locale
  if path = pfx then str "/"
  else if pfx ++ str "/" <+: path then path.drop pfx.length
  else path

/-- Embeds `_build_locale_url(base_url, locale, route)` from `main.py`:
`f"{base_url.rstrip('/')}/{locale}{route}"`. -/
def buildLocaleUrl (baseUrl locale route : Str) : Str :=
  rstripSlash baseUrl ++ '/' :: (locale ++ route)

/-- Embeds `_safe_filename(route)` from `main.py`: strip `'/'` from both
ends; an empty remainder becomes `"index"`, otherwise every `'/'` is
replaced by `'_'`. -/
def safeFilename (route : Str) : Str :=
  let cleaned := stripSlashes route
  if cleaned = [] then str "index"
  else cleaned.map (fun c => if c = '/' then '_' else c)

/-! ### A model of `urllib.parse.urlparse`, restricted to the two fields
the program reads (`netloc` and `path`).

`urlparse` (an external standard-library collaborator) is modelled
after CPython's `urllib/parse.py`: the URL is first sanitized (leading
C0-control/space characters stripped, ASCII tab/CR/LF removed
everywhere); a scheme is recognised when a valid scheme (ASCII letter
followed by letters/digits/`+`/`-`/`.`) precedes the first `':'` and
is lowercased; a netloc is parsed when the remainder starts with
`"//"` and extends to the first of `'/'`, `'?'`, `'#'`; the path is
what follows, cut at the first `'?'` or `'#'`; finally, for schemes in
`uses_params` (which include `http`, `https` and the empty scheme) a
`';'`-params suffix of the last path segment is excised from `.path`.
URL shapes on which CPython raises `ValueError` instead of returning
(unbalanced IPv6 brackets in the netloc) are outside the model. -/

/-- Characters allowed in a URL scheme after the first letter. -/
def isSchemeChar (c : Char) : Bool :=
  c.isAlphanum || c = '+' || c = '-' || c = '.'

/-- A valid URL scheme: nonempty, starts with a letter, scheme chars only. -/
def validScheme : Str → Bool
  | [] => false
  | c :: cs => c.isAlpha && (c :: cs).all isSchemeChar

/-- Split a string at its first `':'` (text before, text after). -/
def splitAtColon : Str → Option (Str × Str)
  | [] => none
  | c :: cs =>
    if c = ':' then some ([], cs)
    else (splitAtColon cs).map (fun p => (c :: p.1, p.2))

/-- `true` for characters that end a netloc. -/
def isNetlocDelim (c : Char) : Bool := c = '/' || c = '?' || c = '#'

/-- `true` for characters that end a path (query/fragment starters). -/
def isQueryFragDelim (c : Char) : Bool := c = '?' || c = '#'

/-- The URL bytes CPython removes everywhere (`\t`, `\r`, `\n`,
`_UNSAFE_URL_BYTES_TO_REMOVE`). -/
def isUnsafeChar (c : Char) : Bool := c = '\t' || c = '\r' || c = '\n'

/-- CPython `urlsplit` preprocessing: `lstrip` of C0 controls and
space (`_WHATWG_C0_CONTROL_OR_SPACE`, code points ≤ 0x20), then
removal of tab/CR/LF everywhere. -/
def sanitizeUrl (url : Str) : Str :=
  (url.dropWhile (fun c => decide (c.toNat ≤ 32))).filter
    (fun c => !isUnsafeChar c)

/-- CPython's `uses_params` scheme list (schemes whose paths carry
`;`-params). -/
def usesParams : List Str :=
  [str "", str "ftp", str "hdl", str "prospero", str "http", str "imap",
   str "https", str "shttp", str "rtsp", str "rtspu", str "sip", str "sips",
   str "mms", str "sftp", str "tel"]

/-- CPython `_splitparams` applied to a path: cut the last path segment
(the whole path when it has no `'/'`) at its first `';'`. -/
def splitParamsPath (path : Str) : Str :=
  if '/' ∈ path then
    (path.reverse.dropWhile (fun c => c != '/')).reverse
      ++ ((path.reverse.takeWhile (fun c => c != '/')).reverse.takeWhile
          (fun c => c != ';'))
  else path.takeWhile (fun c => c != ';')

/-- The `(netloc, path)` fields of `urllib.parse.urlparse`. -/
def urlNetlocPath (url0 : Str) : Str × Str :=
  let url := sanitizeUrl url0
  let sp :=
    match splitAtColon url with
    | some (before, after) =>
      if validScheme before then (lowerStr before, after) else (str "", url)
    | none => (str "", url)
  let netpath :=
    if str "//" <+: sp.2 then
      ((sp.2.drop 2).takeWhile (fun c => !isNetlocDelim c),
       ((sp.2.drop 2).dropWhile (fun c => !isNetlocDelim c)).takeWhile
         (fun c => !isQueryFragDelim c))
    else ([], sp.2.takeWhile (fun c => !isQueryFragDelim c))
  (netpath.1,
   if sp.1 ∈ usesParams then splitParamsPath netpath.2 else netpath.2)

/-- The `path` component of a URL, as `urlparse(url).path`. -/
def urlPath (url : Str) : Str := (urlNetlocPath url).2

/-- The `netloc` component of a URL, as `urlparse(url).netloc`. -/
def urlNetloc (url : Str) : Str := (urlNetlocPath url).1

/-! ### Link normalization (`_extract_same_domain_links`) -/

/-- The per-href path normalization done inside
`_extract_same_domain_links`: default an empty path to `"/"`, force a
leading `'/'`, strip every trailing `'/'` unless the path is exactly
`"/"`. -/
def normalizePath (path : Str) : Str :=
  let p := if path = [] then str "/" else path
  let p := if p.head? = some '/' then p else '/' :: p
  if p ≠ str "/" ∧ p.getLast? = some '/' then rstripSlash p else p

/-- Whether `_extract_same_domain_links` discards an href: its netloc is
nonempty and differs from the base URL's netloc. -/
def dropsHref (baseUrl href : Str) : Bool :=
  urlNetloc href ≠ [] && urlNetloc href ≠ urlNetloc baseUrl

/-- Embeds `_extract_same_domain_links(page, base_url)` from `main.py`,
with the hrefs found in the page's DOM passed in as a list (the DOM is
an external collaborator).  The Python function accumulates normalized
paths into a `set`; the set is modelled as a duplicate-free list
(membership and distinctness are what the program relies on). -/
def extractSameDomainLinks (hrefs : List Str) (baseUrl : Str) : List Str :=
  hrefs.foldl
    (fun acc href =>
      if dropsHref baseUrl href then acc
      else if normalizePath (urlPath href) ∈ acc then acc
      else acc ++ [normalizePath (urlPath href)])
    []

/-! ### FTL directory-name parsing (`_parse_device_key`) -/

/-- Embeds `_parse_device_key(dirname)` from `main.py`: split on `'-'`;
fewer than four parts yields `None`; otherwise the device key rejoins
`parts[0]`, `parts[1]` and `"-".join(parts[3:])`, and `parts[2]` is the
locale. -/
def parseDeviceKey (dirname : Str) : Option (Str × Str) :=
  match dirname.splitOn '-' with
  | model :: version :: locale :: o :: rest =>
    some (model ++ '-' :: version ++ '-' :: List.intercalate (str "-") (o :: rest),
      locale)
  | _ => none

/-! ### The analyzer core (`analyze_localization`) -/

/-- The process environment (`os.environ`), an external collaborator. -/
structure Env where
  lookup : Str → Option Str

/-- `"GEMINI_API_KEY"`. -/
def geminiKeyName : Str := str "GEMINI_API_KEY"

/-- The message of the `RuntimeError` raised on a missing credential. -/
def keyErrMsg : Str := str "GEMINI_API_KEY environment variable is not set"

/-- Embeds `analyze_localization(source_image_path, target_image_path)`
from `main.py`.  The Gemini remote call is an oracle
`gemini : Str → Str → Str` from the two image paths to the response
text; image decoding is an external collaborator and the prompt is an
opaque payload, so neither is modelled.  Python's
`if not api_key: raise RuntimeError(...)` treats both an unset and an
empty variable as missing. -/
def analyzeLocalization (env : Env) (gemini : Str → Str → Str)
    (sourcePath targetPath : Str) : Except Str Str :=
  match env.lookup geminiKeyName with
  | none => .error keyErrMsg
  | some k => if k = [] then .error keyErrMsg else .ok (gemini sourcePath targetPath)

/-- The no-issue sentinel: `"no localization issues" in analysis.lower()`. -/
def reportsNoIssues (analysis : Str) : Bool :=
  decide (str "no localization issues" <:+: lowerStr analysis)

/-- A credential is configured: the variable is set and nonempty. -/
def keyOk (env : Env) : Prop :=
  ∃ k, env.lookup geminiKeyName = some k ∧ k ≠ []

theorem keyOk_analyze {env : Env} (h : keyOk env) (gemini : Str → Str → Str)
    (s t : Str) : analyzeLocalization env gemini s t = .ok (gemini s t) := by
  obtain ⟨k, hk, hne⟩ := h
  simp [analyzeLocalization, hk, hne]

theorem keyMissing_analyze {env : Env}
    (h : env.lookup geminiKeyName = none) (gemini : Str → Str → Str)
    (s t : Str) : analyzeLocalization env gemini s t = .error keyErrMsg := by
  simp [analyzeLocalization, h]

/-! ### The crawler (`crawl_and_analyze`)

The browser session is an external collaborator; it is modelled by two
oracles: `navOk url` — whether `page.goto(url, ...)` followed by
`page.screenshot(...)` succeeds (the two sit in one `try` block in the
source, so one Boolean covers both) — and `hrefs url` — the href
attributes present in the DOM after navigating to `url`.  Besides the
state the Python function keeps (queue, visited set, page counter,
issue list), the model records a trace of observable events and an
uncaught-exception field (`crashed`): an analyzer error is not caught
in `crawl_and_analyze` and aborts the whole run. -/

/-- Configuration and oracles of one `crawl_and_analyze` run. -/
structure CrawlConfig where
  baseUrl : Str
  sourceLocale : Str
  targetLocales : List Str
  screenshotDir : Str
  env : Env
  gemini : Str → Str → Str
  navOk : Str → Bool
  hrefs : Str → List Str

/-- Observable events of a crawl run. -/
inductive CrawlEvent where
  | srcAttempt (route : Str) (ok : Bool)
  | linkExtract (route : Str)
  | enqueue (route : Str)
  | tgtAttempt (route : Str) (locale : Str) (ok : Bool)
  | analyzeCall (route : Str) (locale : Str)
deriving DecidableEq

/-- The route an event belongs to. -/
def eventRoute : CrawlEvent → Str
  | .srcAttempt r _ => r
  | .linkExtract r => r
  | .enqueue r => r
  | .tgtAttempt r _ _ => r
  | .analyzeCall r _ => r

/-- Whether an event is a frontier enqueue. -/
def isEnqueue : CrawlEvent → Bool
  | .enqueue _ => true
  | _ => false

/-- Whether an event is a source-side navigation/screenshot attempt. -/
def isSrcAttempt : CrawlEvent → Bool
  | .srcAttempt _ _ => true
  | _ => false

/-- One recorded issue of the crawl mode (`{route, target_locale,
analysis}`). -/
structure CrawlIssue where
  route : Str
  targetLocale : Str
  analysis : Str
deriving DecidableEq

/-- The mutable state of `crawl_and_analyze`. -/
structure CrawlSt where
  queue : List Str
  visited : List Str
  pagesCrawled : Nat
  issues : List CrawlIssue
  trace : List CrawlEvent
  crashed : Option Str
deriving DecidableEq

/-- The crawl's initial frontier element `"/"`. -/
def rootRoute : Str := str "/"

/-- The source-locale URL for a route. -/
def srcUrl (cfg : CrawlConfig) (route : Str) : Str :=
  buildLocaleUrl cfg.baseUrl cfg.sourceLocale route

/-- The target-locale URL for a route. -/
def tgtUrl (cfg : CrawlConfig) (locale route : Str) : Str :=
  buildLocaleUrl cfg.baseUrl locale route

/-- The source screenshot path
`os.path.join(screenshot_dir, f"{safe_name}_{source_locale}.png")`. -/
def srcShot (cfg : CrawlConfig) (route : Str) : Str :=
  cfg.screenshotDir ++ '/' :: (safeFilename route ++ '_' ::
    (cfg.sourceLocale ++ str ".png"))

/-- The target screenshot path for a locale. -/
def tgtShot (cfg : CrawlConfig) (locale route : Str) : Str :=
  cfg.screenshotDir ++ '/' :: (safeFilename route ++ '_' ::
    (locale ++ str ".png"))

/-- The normalized successor routes discovered on a route's source
page: `_extract_same_domain_links` over the page's hrefs, each stripped
of the source locale. -/
def succs (cfg : CrawlConfig) (route : Str) : List Str :=
  (extractSameDomainLinks (cfg.hrefs (srcUrl cfg route)) cfg.baseUrl).map
    (fun p => stripLocale p cfg.sourceLocale)

/-- The link-discovery loop body: each normalized link not in the
visited set is appended to the queue (duplicates against the queue are
tolerated). -/
def enqueueLinks (links : List Str) (s : CrawlSt) : CrawlSt :=
  match links with
  | [] => s
  | n :: ns =>
    enqueueLinks ns
      (if n ∈ s.visited then s
       else { s with queue := s.queue ++ [n], trace := s.trace ++ [.enqueue n] })

/-- The per-route target-locale loop: navigate and screenshot the
target URL (failure skips only that locale), then call the analyzer; an
analyzer error is uncaught and aborts the run (`crashed`). -/
def targetsLoop (cfg : CrawlConfig) (route : Str) :
    List Str → CrawlSt → CrawlSt
  | [], s => s
  | t :: ts, s =>
    if cfg.navOk (tgtUrl cfg t route) then
      match analyzeLocalization cfg.env cfg.gemini (srcShot cfg route)
          (tgtShot cfg t route) with
      | .error e =>
        { s with
            trace := s.trace ++ [.tgtAttempt route t true, .analyzeCall route t],
            crashed := some e }
      | .ok a =>
        targetsLoop cfg route ts
          (if reportsNoIssues a then
            { s with
                trace := s.trace ++ [.tgtAttempt route t true, .analyzeCall route t] }
           else
            { s with
                trace := s.trace ++ [.tgtAttempt route t true, .analyzeCall route t],
                issues := s.issues ++ [⟨route, t, a⟩] })
    else
      targetsLoop cfg route ts
        { s with trace := s.trace ++ [.tgtAttempt route t false] }

/-- The body executed for a dequeued, not-yet-visited route (the caller
has already marked it visited and incremented the page counter):
attempt source navigation + screenshot; on failure abandon the route
(`continue`); on success extract and enqueue links, then run the
target-locale loop. -/
def processRoute (cfg : CrawlConfig) (route : Str) (s : CrawlSt) : CrawlSt :=
  if cfg.navOk (srcUrl cfg route) then
    targetsLoop cfg route cfg.targetLocales
      (enqueueLinks (succs cfg route)
        { s with trace := s.trace ++ [.srcAttempt route true, .linkExtract route] })
  else { s with trace := s.trace ++ [.srcAttempt route false] }

theorem enqueueLinks_pagesCrawled (links : List Str) (s : CrawlSt) :
    (enqueueLinks links s).pagesCrawled = s.pagesCrawled := by
  induction links generalizing s with
  | nil => rfl
  | cons n ns ih =>
    rw [enqueueLinks, ih]
    split <;> rfl

theorem targetsLoop_pagesCrawled (cfg : CrawlConfig) (route : Str)
    (locales : List Str) (s : CrawlSt) :
    (targetsLoop cfg route locales s).pagesCrawled = s.pagesCrawled := by
  induction locales generalizing s with
  | nil => rfl
  | cons t ts ih =>
    rw [targetsLoop]
    split
    · split
      · rfl
      · rw [ih]; split <;> rfl
    · rw [ih]

theorem processRoute_pagesCrawled (cfg : CrawlConfig) (route : Str)
    (s : CrawlSt) :
    (processRoute cfg route s).pagesCrawled = s.pagesCrawled := by
  rw [processRoute]
  split
  · rw [targetsLoop_pagesCrawled, enqueueLinks_pagesCrawled]
  · rfl

/-- The main BFS loop of `crawl_and_analyze`
(`while queue and pages_crawled < max_pages`).  A set `crashed` field
models the uncaught analyzer exception: nothing further runs. -/
def crawlLoop (cfg : CrawlConfig) (maxPages : Nat) (s : CrawlSt) : CrawlSt :=
  if s.crashed.isSome then s
  else
    match hq : s.queue with
    | [] => s
    | route :: rest =>
      if hp : s.pagesCrawled < maxPages then
        if route ∈ s.visited then
          crawlLoop cfg maxPages { s with queue := rest }
        else
          crawlLoop cfg maxPages
            (processRoute cfg route
              { s with queue := rest, visited := route :: s.visited,
                       pagesCrawled := s.pagesCrawled + 1 })
      else s
termination_by (maxPages - s.pagesCrawled, s.queue.length)
decreasing_by
  · apply Prod.Lex.right
    simp [hq]
  · apply Prod.Lex.left
    rw [processRoute_pagesCrawled]
    simp only []
    omega

/-- The initial crawl state: frontier `["/"]`, nothing visited, zero
pages. -/
def initialCrawlSt : CrawlSt :=
  { queue := [rootRoute], visited := [], pagesCrawled := 0, issues := [],
    trace := [], crashed := none }

/-- Embeds `crawl_and_analyze(base_url, source_locale, target_locales,
max_pages)` from `main.py` (the returned pair is
`(issues, pages_crawled)`; the whole state is kept for the claims). -/
def crawl (cfg : CrawlConfig) (maxPages : Nat) : CrawlSt :=
  crawlLoop cfg maxPages initialCrawlSt

/-- The route of a source-side attempt event (`none` for others). -/
def srcAttemptRoute : CrawlEvent → Option Str
  | .srcAttempt r _ => some r
  | _ => none

/-- The routes that a run actually processed (dequeued while unvisited
and submitted to source navigation), in processing order. -/
def processedRoutes (tr : List CrawlEvent) : List Str :=
  tr.filterMap srcAttemptRoute

/-- Reachability in the link graph that `crawl_and_analyze` explores:
the root route `"/"`, closed under normalized same-domain links of a
route's source page. -/
inductive ReachableR (cfg : CrawlConfig) : Str → Prop where
  | root : ReachableR cfg rootRoute
  | step {r x : Str} : ReachableR cfg r → x ∈ succs cfg r → ReachableR cfg x

/-- The set of routes reachable from the root. -/
def reachSet (cfg : CrawlConfig) : Set Str := { r | ReachableR cfg r }

/-- A concrete environment with the Gemini credential set. -/
def envWithKey : Env := ⟨fun _ => some (str "k")⟩

/-- A concrete environment with no variables set at all. -/
def envEmpty : Env := ⟨fun _ => none⟩

/-- Concrete crawl configuration for witnesses: navigation always
succeeds, pages carry no links, one target locale, credential set. -/
def witnessCfg : CrawlConfig :=
  { baseUrl := str "https://e.com", sourceLocale := str "en",
    targetLocales := [str "fr"], screenshotDir := str "/tmp",
    env := envWithKey,
    gemini := fun _ _ => str "No localization issues detected.",
    navOk := fun _ => true, hrefs := fun _ => [] }

/-- Witness configuration whose navigations all fail. -/
def witnessCfgFail : CrawlConfig := { witnessCfg with navOk := fun _ => false }

/-- Witness configuration with no credential configured. -/
def witnessCfgNoKey : CrawlConfig := { witnessCfg with env := envEmpty }

/-! ### The FTL analyzer (`ftl_analyze` and `_group_device_dirs`)

The filesystem is an external collaborator modelled by two oracles:
`listdir` (directory entries) and `isdir`.  `os.path.join(a, b)` for a
relative second component is `a ++ "/" ++ b`.  Python `dict`s keep
insertion order; they are modelled as association lists updated in
place. -/

/-- Filesystem oracles (`os.listdir`, `os.path.isdir`). -/
structure FS where
  listdir : Str → List Str
  isdir : Str → Bool

/-- `os.path.join` for a relative second component. -/
def pjoin (a b : Str) : Str := a ++ '/' :: b

/-- Python string `≤` (lexicographic by code point), as used by
`sorted`. -/
def strLeB : Str → Str → Bool
  | [], _ => true
  | _ :: _, [] => false
  | a :: as, b :: bs => if a = b then strLeB as bs else decide (a < b)

/-- Python `sorted` on strings. -/
def sortStr (l : List Str) : List Str := l.mergeSort strLeB

/-- A per-device map from locale to directory path, in insertion
order. -/
abbrev LocaleDirs := List (Str × Str)

/-- `{device_key: {locale: dir_path}}`, in insertion order. -/
abbrev Groups := List (Str × LocaleDirs)

/-- Ordered-dict lookup. -/
def alGet {α : Type} : List (Str × α) → Str → Option α
  | [], _ => none
  | (k', v) :: rest, k => if k' = k then some v else alGet rest k

/-- Ordered-dict assignment: replace in place, or append a new key. -/
def alSet {α : Type} : List (Str × α) → Str → α → List (Str × α)
  | [], k, v => [(k, v)]
  | (k', v') :: rest, k, v =>
    if k' = k then (k, v) :: rest else (k', v') :: alSet rest k v

/-- `groups.setdefault(device_key, {})[locale] = path`. -/
def gsInsert (gs : Groups) (dk loc path : Str) : Groups :=
  match alGet gs dk with
  | some inner => alSet gs dk (alSet inner loc path)
  | none => gs ++ [(dk, [(loc, path)])]

/-- The flat-topology pass of `_group_device_dirs`: every immediate
subdirectory whose name parses contributes an entry. -/
def flatScan (fs : FS) (root : Str) : Groups :=
  (sortStr (fs.listdir root)).foldl
    (fun gs entry =>
      if fs.isdir (pjoin root entry) then
        match parseDeviceKey entry with
        | some (dk, loc) => gsInsert gs dk loc (pjoin root entry)
        | none => gs
      else gs) []

/-- The nested-topology pass of `_group_device_dirs`:
`root/locale/results-run/device`, redirected into an `artifacts` child
when one exists. -/
def nestedScan (fs : FS) (root : Str) : Groups :=
  (sortStr (fs.listdir root)).foldl
    (fun gs localeEntry =>
      if fs.isdir (pjoin root localeEntry) then
        (sortStr (fs.listdir (pjoin root localeEntry))).foldl
          (fun gs resultsEntry =>
            if fs.isdir (pjoin (pjoin root localeEntry) resultsEntry) then
              (sortStr (fs.listdir (pjoin (pjoin root localeEntry) resultsEntry))).foldl
                (fun gs deviceEntry =>
                  if fs.isdir (pjoin (pjoin (pjoin root localeEntry) resultsEntry)
                      deviceEntry) then
                    match parseDeviceKey deviceEntry with
                    | some (dk, loc) =>
                      gsInsert gs dk loc
                        (if fs.isdir (pjoin (pjoin (pjoin (pjoin root localeEntry)
                              resultsEntry) deviceEntry) (str "artifacts"))
                         then pjoin (pjoin (pjoin (pjoin root localeEntry)
                              resultsEntry) deviceEntry) (str "artifacts")
                         else pjoin (pjoin (pjoin root localeEntry) resultsEntry)
                              deviceEntry)
                    | none => gs
                  else gs) gs
            else gs) gs
      else gs) []

/-- Embeds `_group_device_dirs(screenshots_dir)` from `main.py`: the
flat scan, falling back to the nested scan when it found nothing. -/
def groupDeviceDirs (fs : FS) (root : Str) : Groups :=
  if flatScan fs root = [] then nestedScan fs root else flatScan fs root

/-- `f.lower().endswith(".png")`. -/
def isPngName (f : Str) : Bool := decide (str ".png" <:+ lowerStr f)

/-- The set `{f for f in os.listdir(d) if f.lower().endswith(".png")}`,
as a duplicate-free list. -/
def pngList (fs : FS) (dir : Str) : List Str :=
  ((fs.listdir dir).filter isPngName).dedup

/-- The size of the symmetric difference of the two png sets — what
`ftl_analyze` reports as the skipped-file count. -/
def skipCount (src tgt : List Str) : Nat :=
  (src.filter (fun f => decide (f ∉ tgt))).length
    + (tgt.filter (fun f => decide (f ∉ src))).length

/-- One analyzer submission of `ftl_analyze`. -/
structure FtlCall where
  device : Str
  targetLocale : Str
  filename : Str
deriving DecidableEq

/-- One skipped-count report of `ftl_analyze`. -/
structure FtlSkip where
  device : Str
  targetLocale : Str
  count : Nat
deriving DecidableEq

/-- One recorded issue of `ftl_analyze`
(`{device, target_locale, filename, analysis}`). -/
structure FtlIssue where
  device : Str
  targetLocale : Str
  filename : Str
  analysis : Str
deriving DecidableEq

/-- The accumulating state of `ftl_analyze`: issues, the analyzer
submissions made so far, the skipped-count reports, and the uncaught
exception (`err`), if any. -/
structure FtlSt where
  issues : List FtlIssue
  calls : List FtlCall
  skips : List FtlSkip
  err : Option Str
deriving DecidableEq

/-- The `for filename in sorted(matched)` loop: submit each pair to
`analyze_localization`; an analyzer error is uncaught and aborts the
run. -/
def ftlFiles (env : Env) (gemini : Str → Str → Str) (dk t sdir tdir : Str) :
    List Str → FtlSt → FtlSt
  | [], st => st
  | f :: rest, st =>
    if st.err.isSome then st
    else
      match analyzeLocalization env gemini (pjoin sdir f) (pjoin tdir f) with
      | .error e => { st with calls := st.calls ++ [⟨dk, t, f⟩], err := some e }
      | .ok a =>
        ftlFiles env gemini dk t sdir tdir rest
          (if reportsNoIssues a then
            { st with calls := st.calls ++ [⟨dk, t, f⟩] }
           else
            { st with calls := st.calls ++ [⟨dk, t, f⟩],
                      issues := st.issues ++ [⟨dk, t, f, a⟩] })

/-- The `for target_locale in target_locales` loop: a missing
target-locale directory skips only that pair; otherwise compare the
matched png sets and report the skipped count when nonzero. -/
def ftlTargets (env : Env) (gemini : Str → Str → Str) (fs : FS) (dk : Str)
    (ldirs : LocaleDirs) (sdir : Str) (srcPngs : List Str) :
    List Str → FtlSt → FtlSt
  | [], st => st
  | t :: ts, st =>
    if st.err.isSome then st
    else
      match alGet ldirs t with
      | none => ftlTargets env gemini fs dk ldirs sdir srcPngs ts st
      | some tdir =>
        ftlTargets env gemini fs dk ldirs sdir srcPngs ts
          (ftlFiles env gemini dk t sdir tdir
            (sortStr (srcPngs.filter (fun f => decide (f ∈ pngList fs tdir))))
            (if skipCount srcPngs (pngList fs tdir) ≠ 0 then
              { st with skips :=
                  st.skips ++ [⟨dk, t, skipCount srcPngs (pngList fs tdir)⟩] }
             else st))

/-- The `for device_key, locale_dirs in groups.items()` loop: a device
with no source-locale directory is skipped entirely. -/
def ftlDevices (env : Env) (gemini : Str → Str → Str) (fs : FS) (srcLoc : Str)
    (targets : List Str) : Groups → FtlSt → FtlSt
  | [], st => st
  | (dk, ldirs) :: gs, st =>
    if st.err.isSome then st
    else
      match alGet ldirs srcLoc with
      | none => ftlDevices env gemini fs srcLoc targets gs st
      | some sdir =>
        ftlDevices env gemini fs srcLoc targets gs
          (ftlTargets env gemini fs dk ldirs sdir (pngList fs sdir) targets st)

/-- The `FileNotFoundError` message raised for a missing screenshots
directory. -/
def fnfMsg (root : Str) : Str := str "Screenshots directory not found: " ++ root

/-- Embeds `ftl_analyze(screenshots_dir, source_locale, target_locales)`
from `main.py` (the returned value is `issues`; calls, skip reports and
the uncaught exception are kept for the claims). -/
def ftlAnalyze (env : Env) (gemini : Str → Str → Str) (fs : FS)
    (root srcLoc : Str) (targets : List Str) : FtlSt :=
  if fs.isdir root then
    ftlDevices env gemini fs srcLoc targets (groupDeviceDirs fs root)
      { issues := [], calls := [], skips := [], err := none }
  else { issues := [], calls := [], skips := [], err := some (fnfMsg root) }

/-! ## Claims about the pure URL/locale helpers -/

/-- **C7.** `_strip_locale_prefix` exactly: a path equal to `/{locale}`
becomes `/`; a path starting with `/{locale}/` loses that prefix
(`len("/" + locale)` characters) and the remainder still starts with
`'/'`; every other path — including one whose first segment merely
begins with the locale — is returned unchanged. -/
theorem stripLocale_cases (path locale : Str) :
    (path = '/' :: locale → stripLocale path locale = str "/")
    ∧ (('/' :: locale) ++ str "/" <+: path →
        stripLocale path locale = path.drop (locale.length + 1)
        ∧ (stripLocale path locale).head? = some '/')
    ∧ (path ≠ '/' :: locale → ¬ (('/' :: locale) ++ str "/" <+: path) →
        stripLocale path locale = path) := by
  refine ⟨fun h => ?_, fun h => ?_, fun h1 h2 => ?_⟩
  · subst h
    simp [stripLocale]
  · obtain ⟨t, ht⟩ := h
    have hne : path ≠ '/' :: locale := by
      intro he
      rw [he] at ht
      apply_fun List.length at ht
      simp [str] at ht
    have hdrop : path.drop (locale.length + 1) = '/' :: t := by
      have : path = ('/' :: locale) ++ ('/' :: t) := by
        rw [← ht]; simp [str]
      rw [this]
      have hl : locale.length + 1 = ('/' :: locale).length := by simp
      rw [hl, List.drop_left]
    have hpre : ('/' :: locale) ++ str "/" <+: path := ⟨t, ht⟩
    have heq : stripLocale path locale = path.drop (locale.length + 1) := by
      rw [stripLocale]
      simp only [if_neg hne]
      rw [if_pos hpre]
      simp
    exact ⟨heq, by rw [heq, hdrop]; rfl⟩
  · rw [stripLocale]
    simp only [if_neg h1, if_neg h2]

/-- Witness for C7 at the spec's three concrete examples. -/
theorem stripLocale_cases_witness :
    stripLocale (str "/en/about") (str "en") = str "/about"
    ∧ stripLocale (str "/en") (str "en") = str "/"
    ∧ stripLocale (str "/english/about") (str "en") = str "/english/about" := by
  refine ⟨?_, ?_, ?_⟩
  · exact ((stripLocale_cases (str "/en/about") (str "en")).2.1
      (by decide)).1.trans (by decide)
  · exact (stripLocale_cases (str "/en") (str "en")).1 (by decide)
  · exact (stripLocale_cases (str "/english/about") (str "en")).2.2
      (by decide) (by decide)

theorem validScheme_no_colon {s : Str} (hs : validScheme s = true) :
    ∀ c ∈ s, c ≠ ':' := by
  match s with
  | [] => simp [validScheme] at hs
  | c :: cs =>
    simp only [validScheme, Bool.and_eq_true, List.all_eq_true] at hs
    intro x hx he
    have := hs.2 x hx
    subst he
    simp [isSchemeChar] at this

theorem splitAtColon_append (s rest : Str) (hnc : ∀ c ∈ s, c ≠ ':') :
    splitAtColon (s ++ ':' :: rest) = some (s, rest) := by
  induction s with
  | nil => simp [splitAtColon]
  | cons c cs ih =>
    have hc : c ≠ ':' := hnc c (by simp)
    simp only [List.cons_append, splitAtColon, if_neg hc, List.append_eq]
    rw [ih (fun x hx => hnc x (by simp [hx]))]
    rfl

theorem takeWhile_append_stop (p : Char → Bool) (h : Str) (x : Char) (xs : Str)
    (hall : ∀ c ∈ h, p c = true) (hx : p x = false) :
    (h ++ x :: xs).takeWhile p = h := by
  induction h with
  | nil => simp [List.takeWhile, hx]
  | cons c cs ih =>
    have hc : p c = true := hall c (by simp)
    simp [List.takeWhile_cons, hc, ih (fun d hd => hall d (by simp [hd]))]

theorem dropWhile_append_stop (p : Char → Bool) (h : Str) (x : Char) (xs : Str)
    (hall : ∀ c ∈ h, p c = true) (hx : p x = false) :
    (h ++ x :: xs).dropWhile p = x :: xs := by
  induction h with
  | nil => simp [List.dropWhile, hx]
  | cons c cs ih =>
    have hc : p c = true := hall c (by simp)
    simp [List.dropWhile_cons, hc, ih (fun d hd => hall d (by simp [hd]))]

theorem isAlpha_toNat_gt (c : Char) (h : c.isAlpha = true) :
    decide (c.toNat ≤ 32) = false := by
  simp only [Char.isAlpha, Char.isUpper, Char.isLower, Bool.or_eq_true,
    Bool.and_eq_true, decide_eq_true_eq] at h
  simp only [decide_eq_false_iff_not, not_le, Char.toNat]
  rcases h with ⟨h1, _⟩ | ⟨h1, _⟩
  · have h2 : 65 ≤ c.val.toNat := h1
    omega
  · have h2 : 97 ≤ c.val.toNat := h1
    omega

theorem isSchemeChar_not_unsafe {c : Char} (h : isSchemeChar c = true) :
    isUnsafeChar c = false := by
  by_contra hne
  rw [Bool.not_eq_false] at hne
  simp only [isUnsafeChar, Bool.or_eq_true, decide_eq_true_eq] at hne
  rcases hne with (rfl | rfl) | rfl <;> exact absurd h (by decide)

theorem validScheme_parts {s : Str} (hs : validScheme s = true) :
    ∃ c s', s = c :: s' ∧ c.isAlpha = true ∧ ∀ x ∈ s, isSchemeChar x = true := by
  cases s with
  | nil => simp [validScheme] at hs
  | cons c cs =>
    simp only [validScheme, Bool.and_eq_true, List.all_eq_true] at hs
    exact ⟨c, cs, rfl, hs.1, hs.2⟩

theorem sanitizeUrl_cons {c : Char} {rest : Str}
    (hc : decide (c.toNat ≤ 32) = false)
    (hall : ∀ x ∈ c :: rest, isUnsafeChar x = false) :
    sanitizeUrl (c :: rest) = c :: rest := by
  rw [sanitizeUrl, List.dropWhile_cons, hc]
  rw [if_neg Bool.false_ne_true]
  exact List.filter_eq_self.mpr (fun a ha => by rw [hall a ha]; rfl)

theorem splitParamsPath_no_semi {p : Str} (h : ';' ∉ p) :
    splitParamsPath p = p := by
  rw [splitParamsPath]
  split
  · have hsub : ∀ c ∈ (p.reverse.takeWhile (fun c => c != '/')).reverse,
        (c != ';') = true := by
      intro c hc
      rw [List.mem_reverse] at hc
      have hcp : c ∈ p :=
        List.mem_reverse.mp ((List.takeWhile_prefix _).subset hc)
      simp only [bne_iff_ne, ne_eq]
      intro he
      exact h (he ▸ hcp)
    rw [List.takeWhile_eq_self_iff.mpr hsub]
    rw [← List.reverse_append, List.takeWhile_append_dropWhile,
      List.reverse_reverse]
  · refine List.takeWhile_eq_self_iff.mpr (fun c hc => ?_)
    simp only [bne_iff_ne, ne_eq]
    intro he
    exact h (he ▸ hc)

/-- Computation of `urlparse`'s `(netloc, path)` on a well-formed
`scheme://host/...` URL whose path carries no query, fragment or
params delimiters and no removable control characters. -/
theorem urlNetlocPath_scheme_host (s h p : Str)
    (hs : validScheme s = true)
    (hh : ∀ c ∈ h, isNetlocDelim c = false ∧ isUnsafeChar c = false)
    (hp : ∀ c ∈ p, isQueryFragDelim c = false ∧ c ≠ ';' ∧ isUnsafeChar c = false) :
    urlNetlocPath (s ++ ':' :: ('/' :: '/' :: (h ++ '/' :: p))) = (h, '/' :: p) := by
  obtain ⟨c0, s', hse, hca, hsch⟩ := validScheme_parts hs
  have hsan : sanitizeUrl (s ++ ':' :: ('/' :: '/' :: (h ++ '/' :: p)))
      = s ++ ':' :: ('/' :: '/' :: (h ++ '/' :: p)) := by
    rw [hse, List.cons_append]
    refine sanitizeUrl_cons (isAlpha_toNat_gt c0 hca) ?_
    intro x hx
    rw [← List.cons_append, ← hse] at hx
    rcases List.mem_append.mp hx with hx' | hx'
    · exact isSchemeChar_not_unsafe (hsch x hx')
    · rcases List.mem_cons.mp hx' with rfl | hx''
      · decide
      · rcases List.mem_cons.mp hx'' with rfl | hx3
        · decide
        · rcases List.mem_cons.mp hx3 with rfl | hx4
          · decide
          · rcases List.mem_append.mp hx4 with hx5 | hx5
            · exact (hh x hx5).2
            · rcases List.mem_cons.mp hx5 with rfl | hx6
              · decide
              · exact (hp x hx6).2.2
  have hnos : ';' ∉ ('/' :: p) := by
    intro hm
    rcases List.mem_cons.mp hm with he | hm'
    · exact absurd he (by decide)
    · exact absurd rfl (hp ';' hm').2.1
  rw [urlNetlocPath, hsan]
  rw [splitAtColon_append s _ (validScheme_no_colon hs)]
  simp only [hs, if_true]
  have hpre : str "//" <+: ('/' :: '/' :: (h ++ '/' :: p)) :=
    ⟨h ++ '/' :: p, by simp [str]⟩
  rw [if_pos hpre]
  have hdrop2 : ('/' :: '/' :: (h ++ '/' :: p)).drop 2 = h ++ '/' :: p := by simp
  rw [hdrop2]
  rw [takeWhile_append_stop _ h '/' _
    (fun c hc => by simp [(hh c hc).1]) (by simp [isNetlocDelim])]
  rw [dropWhile_append_stop _ h '/' _
    (fun c hc => by simp [(hh c hc).1]) (by simp [isNetlocDelim])]
  have htake : List.takeWhile (fun c => !isQueryFragDelim c) ('/' :: p)
      = '/' :: p := by
    apply List.takeWhile_eq_self_iff.mpr
    intro x hx
    rcases List.mem_cons.mp hx with rfl | hx'
    · simp [isQueryFragDelim]
    · simp [(hp x hx').1]
  rw [htake]
  split
  · rw [splitParamsPath_no_semi hnos]
  · rfl

/-- **C3 (counterexample).** The claim quantifies over *every* base URL,
but for a base URL that itself carries a path component
(`https://example.com/app`) the built URL's path is
`/app/en/about`, which `_strip_locale_prefix` leaves unchanged, so the
round trip does not return the original route `/about`. -/
theorem roundtrip_counterexample :
    stripLocale
        (urlPath (buildLocaleUrl (str "https://example.com/app") (str "en")
          (str "/about")))
        (str "en") ≠ str "/about" := by decide

/-- **C3 (amended).** Round-trip for `_build_locale_url` followed by
`_strip_locale_prefix` on the URL's path component, for a base URL
whose slash-stripped form is exactly `scheme://host` (no path
component, host free of `/`, `?`, `#` and of removable tab/CR/LF), and
a route that starts with `'/'`; the locale and route must not contain
query/fragment/params delimiters (`?`, `#`, `;`) or removable
tab/CR/LF characters.  No restriction on locale-segment collisions is
needed: only the first copy of the locale prefix is stripped. -/
theorem roundtrip_amended (base locale route s h : Str)
    (hbase : rstripSlash base = s ++ str "://" ++ h)
    (hs : validScheme s = true)
    (hh : ∀ c ∈ h, isNetlocDelim c = false ∧ isUnsafeChar c = false)
    (hroute : route.head? = some '/')
    (hlq : ∀ c ∈ locale, isQueryFragDelim c = false ∧ c ≠ ';'
      ∧ isUnsafeChar c = false)
    (hrq : ∀ c ∈ route, isQueryFragDelim c = false ∧ c ≠ ';'
      ∧ isUnsafeChar c = false) :
    stripLocale (urlPath (buildLocaleUrl base locale route)) locale = route := by
  obtain ⟨r, hr⟩ : ∃ r, route = '/' :: r := by
    cases route with
    | nil => simp at hroute
    | cons a t =>
      have ha : a = '/' := by simpa using hroute
      exact ⟨t, by rw [ha]⟩
  have hurl : buildLocaleUrl base locale route
      = s ++ ':' :: ('/' :: '/' :: (h ++ '/' :: (locale ++ route))) := by
    rw [buildLocaleUrl, hbase]
    simp [str]
  have hpath : urlPath (buildLocaleUrl base locale route)
      = '/' :: (locale ++ route) := by
    rw [hurl, urlPath, urlNetlocPath_scheme_host s h (locale ++ route) hs hh
      (fun c hc => (List.mem_append.mp hc).elim (hlq c) (hrq c))]
  rw [hpath]
  have hsplit : '/' :: (locale ++ route) = ('/' :: locale) ++ route := by simp
  rw [hsplit, stripLocale]
  have hne : ('/' :: locale) ++ route ≠ '/' :: locale := by
    intro he
    apply_fun List.length at he
    simp [hr] at he
  have hpre : ('/' :: locale) ++ str "/" <+: ('/' :: locale) ++ route := by
    refine ⟨r, ?_⟩
    rw [hr]
    simp [str]
  simp only [if_neg hne, if_pos hpre, List.length_cons]
  have : locale.length + 1 = ('/' :: locale).length := by simp
  rw [this, List.drop_left]

/-- Witness for the amended C3 at a concrete base, locale and route. -/
theorem roundtrip_amended_witness :
    stripLocale
        (urlPath (buildLocaleUrl (str "https://example.com") (str "fr")
          (str "/about")))
        (str "fr") = str "/about" :=
  roundtrip_amended (str "https://example.com") (str "fr") (str "/about")
    (str "https") (str "example.com") (by decide) (by decide) (by decide)
    (by decide) (by decide) (by decide)

/-- **C9.** `_parse_device_key`: a name splitting on `'-'` into at least
four segments yields the device key that excises the third segment
(the locale) and rejoins the first, second and all remaining segments
(the orientation keeps its internal hyphens); three or fewer segments
yield `None`. -/
theorem parseDeviceKey_cases (dirname : Str) :
    (∀ m v l o rest, dirname.splitOn '-' = m :: v :: l :: o :: rest →
      parseDeviceKey dirname =
        some (m ++ '-' :: v ++ '-' :: List.intercalate (str "-") (o :: rest), l))
    ∧ ((dirname.splitOn '-').length < 4 → parseDeviceKey dirname = none) := by
  constructor
  · intro m v l o rest hsp
    rw [parseDeviceKey, hsp]
  · intro hlen
    rcases hsp : dirname.splitOn '-' with _ | ⟨a, _ | ⟨b, _ | ⟨c, _ | ⟨d, e⟩⟩⟩⟩ <;>
      simp only [parseDeviceKey, hsp] <;>
      first
        | rfl
        | (rw [hsp] at hlen; simp at hlen; omega)

/-- Witness for C9: the spec's example directory name, and a
three-segment name that is skipped. -/
theorem parseDeviceKey_cases_witness :
    parseDeviceKey (str "starlte-29-en-portrait")
      = some (str "starlte-29-portrait", str "en")
    ∧ parseDeviceKey (str "ftl-results-x") = none := by
  constructor
  · exact ((parseDeviceKey_cases (str "starlte-29-en-portrait")).1
      (str "starlte") (str "29") (str "en") (str "portrait") []
      (by decide)).trans (by decide)
  · exact (parseDeviceKey_cases (str "ftl-results-x")).2 (by decide)

/-- **C8.** `_extract_same_domain_links`: a path is in the result iff it
is the normalization of some incoming href that is not discarded, where
an href is discarded exactly when its origin (netloc) is present and
differs from the base URL's origin; the `Finset` result collapses
duplicates. -/
theorem extractSameDomainLinks_aux (baseUrl p : Str) (l : List Str)
    (acc : List Str) :
    (p ∈ l.foldl
        (fun acc href =>
          if dropsHref baseUrl href then acc
          else if normalizePath (urlPath href) ∈ acc then acc
          else acc ++ [normalizePath (urlPath href)]) acc
      ↔ p ∈ acc ∨ ∃ href ∈ l, dropsHref baseUrl href = false
          ∧ p = normalizePath (urlPath href))
    ∧ (acc.Nodup →
        (l.foldl
          (fun acc href =>
            if dropsHref baseUrl href then acc
            else if normalizePath (urlPath href) ∈ acc then acc
            else acc ++ [normalizePath (urlPath href)]) acc).Nodup) := by
  induction l generalizing acc with
  | nil => simp
  | cons a t ih =>
    rw [List.foldl_cons]
    cases hdrop : dropsHref baseUrl a with
    | true =>
      rw [if_pos rfl]
      constructor
      · rw [(ih acc).1]
        constructor
        · rintro (hp | ⟨href, hm, hd, he⟩)
          · exact Or.inl hp
          · exact Or.inr ⟨href, by simp [hm], hd, he⟩
        · rintro (hp | ⟨href, hm, hd, he⟩)
          · exact Or.inl hp
          · rcases List.mem_cons.mp hm with rfl | hm'
            · rw [hd] at hdrop; cases hdrop
            · exact Or.inr ⟨href, hm', hd, he⟩
      · exact (ih acc).2
    | false =>
      rw [if_neg Bool.false_ne_true]
      by_cases hin : normalizePath (urlPath a) ∈ acc
      · simp only [if_pos hin]
        constructor
        · rw [(ih acc).1]
          constructor
          · rintro (hp | ⟨href, hm, hd, he⟩)
            · exact Or.inl hp
            · exact Or.inr ⟨href, by simp [hm], hd, he⟩
          · rintro (hp | ⟨href, hm, hd, he⟩)
            · exact Or.inl hp
            · rcases List.mem_cons.mp hm with rfl | hm'
              · exact Or.inl (he ▸ hin)
              · exact Or.inr ⟨href, hm', hd, he⟩
        · exact (ih acc).2
      · simp only [if_neg hin]
        constructor
        · rw [(ih _).1]
          simp only [List.mem_append, List.mem_cons, List.not_mem_nil, or_false]
          constructor
          · rintro ((hp | hp) | ⟨href, hm, hd, he⟩)
            · exact Or.inl hp
            · exact Or.inr ⟨a, Or.inl rfl, hdrop, hp⟩
            · exact Or.inr ⟨href, Or.inr hm, hd, he⟩
          · rintro (hp | ⟨href, hm | hm', hd, he⟩)
            · exact Or.inl (Or.inl hp)
            · subst hm; exact Or.inl (Or.inr he)
            · exact Or.inr ⟨href, hm', hd, he⟩
        · intro hnd
          exact (ih _).2 (by
            rw [List.nodup_append]
            exact ⟨hnd, List.nodup_singleton _, by simpa using hin⟩)

/-- **C8.** `_extract_same_domain_links`: a path is in the result iff it
is the normalization of some incoming href that is not discarded, where
an href is discarded exactly when its origin (netloc) is present and
differs from the base URL's origin; the result is a set — duplicates
collapse (the result list is duplicate-free). -/
theorem extractSameDomainLinks_mem (hrefs : List Str) (baseUrl p : Str) :
    (p ∈ extractSameDomainLinks hrefs baseUrl ↔
      ∃ href ∈ hrefs, dropsHref baseUrl href = false
        ∧ p = normalizePath (urlPath href))
    ∧ (extractSameDomainLinks hrefs baseUrl).Nodup := by
  refine ⟨?_, ?_⟩
  · rw [extractSameDomainLinks, (extractSameDomainLinks_aux baseUrl p hrefs []).1]
    simp
  · exact (extractSameDomainLinks_aux baseUrl p hrefs []).2 List.nodup_nil

/-! ## Crawl-loop infrastructure lemmas -/

theorem enqueueLinks_spec (links : List Str) (s : CrawlSt) :
    (enqueueLinks links s).visited = s.visited
    ∧ (enqueueLinks links s).crashed = s.crashed
    ∧ (enqueueLinks links s).issues = s.issues
    ∧ ∃ qs tl,
        (enqueueLinks links s).queue = s.queue ++ qs
        ∧ (enqueueLinks links s).trace = s.trace ++ tl
        ∧ (∀ x ∈ qs, x ∈ links ∧ x ∉ s.visited)
        ∧ (∀ x ∈ links, x ∉ s.visited → x ∈ qs)
        ∧ (∀ e ∈ tl, ∃ x ∈ qs, e = .enqueue x) := by
  induction links generalizing s with
  | nil =>
    exact ⟨rfl, rfl, rfl, [], [], by simp [enqueueLinks]⟩
  | cons n ns ih =>
    rw [enqueueLinks]
    by_cases hv : n ∈ s.visited
    · rw [if_pos hv]
      obtain ⟨h1, h2, h3, qs, tl, hq, ht, hmem, hcov, hev⟩ := ih s
      refine ⟨h1, h2, h3, qs, tl, hq, ht, ?_, ?_, hev⟩
      · exact fun x hx => ⟨List.mem_cons_of_mem _ (hmem x hx).1, (hmem x hx).2⟩
      · intro x hx hnx
        rcases List.mem_cons.mp hx with rfl | hx'
        · exact absurd hv hnx
        · exact hcov x hx' hnx
    · rw [if_neg hv]
      obtain ⟨h1, h2, h3, qs, tl, hq, ht, hmem, hcov, hev⟩ :=
        ih { s with queue := s.queue ++ [n], trace := s.trace ++ [.enqueue n] }
      refine ⟨h1, h2, h3, n :: qs, .enqueue n :: tl, ?_, ?_, ?_, ?_, ?_⟩
      · rw [hq]; simp
      · rw [ht]; simp
      · intro x hx
        rcases List.mem_cons.mp hx with rfl | hx'
        · exact ⟨List.mem_cons_self _ _, hv⟩
        · exact ⟨List.mem_cons_of_mem _ (hmem x hx').1, (hmem x hx').2⟩
      · intro x hx hnx
        rcases List.mem_cons.mp hx with rfl | hx'
        · exact List.mem_cons_self _ _
        · exact List.mem_cons_of_mem _ (hcov x hx' hnx)
      · intro e he
        rcases List.mem_cons.mp he with rfl | he'
        · exact ⟨n, List.mem_cons_self _ _, rfl⟩
        · obtain ⟨x, hx, hex⟩ := hev e he'
          exact ⟨x, List.mem_cons_of_mem _ hx, hex⟩

theorem targetsLoop_spec (cfg : CrawlConfig) (route : Str)
    (locales : List Str) (s : CrawlSt) :
    (targetsLoop cfg route locales s).visited = s.visited
    ∧ (targetsLoop cfg route locales s).queue = s.queue
    ∧ ∃ tl,
        (targetsLoop cfg route locales s).trace = s.trace ++ tl
        ∧ ∀ e ∈ tl, isSrcAttempt e = false ∧ isEnqueue e = false
            ∧ eventRoute e = route := by
  induction locales generalizing s with
  | nil => exact ⟨rfl, rfl, [], by simp [targetsLoop]⟩
  | cons t ts ih =>
    rw [targetsLoop]
    split
    · split
      · refine ⟨rfl, rfl, [.tgtAttempt route t true, .analyzeCall route t], rfl, ?_⟩
        intro e he
        rcases List.mem_cons.mp he with rfl | he'
        · exact ⟨rfl, rfl, rfl⟩
        · rcases List.mem_cons.mp he' with rfl | he''
          · exact ⟨rfl, rfl, rfl⟩
          · cases he''
      · rename_i a
        split
        · obtain ⟨h1, h2, tl, ht, hev⟩ := ih _
          refine ⟨h1, h2, [.tgtAttempt route t true, .analyzeCall route t] ++ tl,
            by rw [ht]; simp, ?_⟩
          intro e he
          rcases List.mem_append.mp he with he' | he'
          · rcases List.mem_cons.mp he' with rfl | he''
            · exact ⟨rfl, rfl, rfl⟩
            · rcases List.mem_cons.mp he'' with rfl | he'''
              · exact ⟨rfl, rfl, rfl⟩
              · cases he'''
          · exact hev e he'
        · obtain ⟨h1, h2, tl, ht, hev⟩ := ih _
          refine ⟨h1, h2, [.tgtAttempt route t true, .analyzeCall route t] ++ tl,
            by rw [ht]; simp, ?_⟩
          intro e he
          rcases List.mem_append.mp he with he' | he'
          · rcases List.mem_cons.mp he' with rfl | he''
            · exact ⟨rfl, rfl, rfl⟩
            · rcases List.mem_cons.mp he'' with rfl | he'''
              · exact ⟨rfl, rfl, rfl⟩
              · cases he'''
          · exact hev e he'
    · obtain ⟨h1, h2, tl, ht, hev⟩ := ih _
      refine ⟨h1, h2, .tgtAttempt route t false :: tl, by rw [ht]; simp, ?_⟩
      intro e he
      rcases List.mem_cons.mp he with rfl | he'
      · exact ⟨rfl, rfl, rfl⟩
      · exact hev e he'

theorem targetsLoop_crashed_keyOk (cfg : CrawlConfig) (hkey : keyOk cfg.env)
    (route : Str) (locales : List Str) (s : CrawlSt) :
    (targetsLoop cfg route locales s).crashed = s.crashed := by
  induction locales generalizing s with
  | nil => rfl
  | cons t ts ih =>
    rw [targetsLoop]
    rw [keyOk_analyze hkey]
    split
    · rw [ih]
      split <;> rfl
    · rw [ih]

theorem targetsLoop_c6 (cfg : CrawlConfig)
    (hmiss : cfg.env.lookup geminiKeyName = none) (route : Str)
    (locales : List Str) (s : CrawlSt)
    (hno : ∀ r l, CrawlEvent.analyzeCall r l ∉ s.trace) :
    (targetsLoop cfg route locales s).crashed = some keyErrMsg
    ∨ ∀ r l, CrawlEvent.analyzeCall r l ∉ (targetsLoop cfg route locales s).trace := by
  induction locales generalizing s with
  | nil => exact Or.inr hno
  | cons t ts ih =>
    rw [targetsLoop]
    rw [keyMissing_analyze hmiss]
    split
    · exact Or.inl rfl
    · refine ih _ ?_
      intro r l hl
      simp only [List.mem_append, List.mem_cons, List.not_mem_nil, or_false] at hl
      rcases hl with hl | hl
      · exact hno r l hl
      · cases hl

theorem processRoute_crashed_keyOk (cfg : CrawlConfig) (hkey : keyOk cfg.env)
    (route : Str) (s : CrawlSt) :
    (processRoute cfg route s).crashed = s.crashed := by
  rw [processRoute]
  split
  · rw [targetsLoop_crashed_keyOk cfg hkey]
    exact (enqueueLinks_spec _ _).2.1
  · rfl

theorem processRoute_c6 (cfg : CrawlConfig)
    (hmiss : cfg.env.lookup geminiKeyName = none) (route : Str) (s : CrawlSt)
    (hno : ∀ r l, CrawlEvent.analyzeCall r l ∉ s.trace) :
    (processRoute cfg route s).crashed = some keyErrMsg
    ∨ ∀ r l, CrawlEvent.analyzeCall r l ∉ (processRoute cfg route s).trace := by
  rw [processRoute]
  split
  · refine targetsLoop_c6 cfg hmiss route _ _ ?_
    obtain ⟨_, _, _, qs, tl, _, ht, _, _, hev⟩ :=
      enqueueLinks_spec (succs cfg route)
        { s with trace := s.trace ++ [.srcAttempt route true, .linkExtract route] }
    rw [ht]
    intro r l hl
    simp only [List.mem_append] at hl
    rcases hl with (hl | hl) | hl
    · exact hno r l hl
    · simp at hl
    · obtain ⟨x, _, hex⟩ := hev _ hl
      cases hex
  · refine Or.inr ?_
    intro r l hl
    simp only [List.mem_append, List.mem_cons, List.not_mem_nil, or_false] at hl
    rcases hl with hl | hl
    · exact hno r l hl
    · cases hl

theorem targetsLoop_crash_from_call (cfg : CrawlConfig) (route : Str)
    (ts : List Str) (s : CrawlSt) :
    (targetsLoop cfg route ts s).crashed = s.crashed
    ∨ ∃ r l, CrawlEvent.analyzeCall r l ∈ (targetsLoop cfg route ts s).trace := by
  induction ts generalizing s with
  | nil => exact Or.inl rfl
  | cons t ts ih =>
    rw [targetsLoop]
    split
    · split
      · exact Or.inr ⟨route, t, by simp⟩
      · rcases ih _ with h | h
        · refine Or.inl (h.trans ?_)
          split <;> rfl
        · exact Or.inr h
    · rcases ih _ with h | h
      · exact Or.inl h
      · exact Or.inr h

theorem processRoute_crash_from_call (cfg : CrawlConfig) (route : Str)
    (s : CrawlSt) :
    (processRoute cfg route s).crashed = s.crashed
    ∨ ∃ r l, CrawlEvent.analyzeCall r l ∈ (processRoute cfg route s).trace := by
  rw [processRoute]
  split
  · rcases targetsLoop_crash_from_call cfg route cfg.targetLocales _ with h | h
    · exact Or.inl (h.trans (enqueueLinks_spec _ _).2.1)
    · exact Or.inr h
  · exact Or.inl rfl

/-- Everything `processRoute` does to the state, in one statement:
visited and page counter untouched; the queue gains a suffix of
filtered successor routes; the trace gains the source attempt followed
(on success only) by extraction, enqueue and target events of this
route. -/
theorem processRoute_spec (cfg : CrawlConfig) (route : Str) (s : CrawlSt) :
    (processRoute cfg route s).visited = s.visited
    ∧ ∃ qs tl,
        (processRoute cfg route s).queue = s.queue ++ qs
        ∧ (processRoute cfg route s).trace
            = s.trace ++ .srcAttempt route (cfg.navOk (srcUrl cfg route)) :: tl
        ∧ (cfg.navOk (srcUrl cfg route) = false → qs = [] ∧ tl = [])
        ∧ (∀ x ∈ qs, x ∈ succs cfg route ∧ x ∉ s.visited)
        ∧ (cfg.navOk (srcUrl cfg route) = true →
            ∀ x ∈ succs cfg route, x ∉ s.visited → x ∈ qs)
        ∧ (∀ e ∈ tl, isSrcAttempt e = false)
        ∧ (∀ e ∈ tl, isEnqueue e = false → eventRoute e = route)
        ∧ (∀ e ∈ tl, isEnqueue e = true → ∃ x ∈ qs, e = .enqueue x) := by
  rw [processRoute]
  cases hnav : cfg.navOk (srcUrl cfg route) with
  | true =>
    rw [if_pos rfl]
    obtain ⟨he1, he2, he3, qs, tl0, hq0, ht0, hmem, hcov, hev⟩ :=
      enqueueLinks_spec (succs cfg route)
        { s with trace := s.trace ++ [.srcAttempt route true, .linkExtract route] }
    obtain ⟨ht1, ht2, tl1, htl1, hevt⟩ := targetsLoop_spec cfg route cfg.targetLocales _
    refine ⟨by rw [ht1, he1], qs, .linkExtract route :: (tl0 ++ tl1), ?_, ?_, ?_, hmem,
      fun _ => hcov, ?_, ?_, ?_⟩
    · rw [ht2, hq0]
    · rw [htl1, ht0]
      simp
    · intro hfalse; cases hfalse
    · intro e he
      rcases List.mem_cons.mp he with rfl | he'
      · rfl
      · rcases List.mem_append.mp he' with he'' | he''
        · obtain ⟨x, _, hex⟩ := hev e he''
          subst hex; rfl
        · exact (hevt e he'').1
    · intro e he hne
      rcases List.mem_cons.mp he with rfl | he'
      · rfl
      · rcases List.mem_append.mp he' with he'' | he''
        · obtain ⟨x, _, hex⟩ := hev e he''
          subst hex; cases hne
        · exact (hevt e he'').2.2
    · intro e he hisq
      rcases List.mem_cons.mp he with rfl | he'
      · cases hisq
      · rcases List.mem_append.mp he' with he'' | he''
        · exact hev e he''
        · rw [(hevt e he'').2.1] at hisq; cases hisq
  | false =>
    rw [if_neg Bool.false_ne_true]
    refine ⟨rfl, [], [], by simp, rfl, fun _ => ⟨rfl, rfl⟩, by simp, ?_,
      by simp, by simp, by simp⟩
    intro hfalse
    cases hfalse

/-- Generic invariant-preservation principle for the BFS loop: a
predicate preserved by the discard-visited step and by the
process-route step holds of the loop's result. -/
theorem crawlLoop_invariant (cfg : CrawlConfig) (maxPages : Nat)
    (P : CrawlSt → Prop)
    (hskip : ∀ s route rest, s.crashed.isSome = false →
      s.queue = route :: rest → s.pagesCrawled < maxPages →
      route ∈ s.visited → P s → P { s with queue := rest })
    (hstep : ∀ s route rest, s.crashed.isSome = false →
      s.queue = route :: rest → s.pagesCrawled < maxPages →
      route ∉ s.visited → P s →
      P (processRoute cfg route
          { s with queue := rest, visited := route :: s.visited,
                   pagesCrawled := s.pagesCrawled + 1 })) :
    ∀ s, P s → P (crawlLoop cfg maxPages s) := by
  intro s
  induction s using crawlLoop.induct cfg maxPages with
  | case1 x hx =>
    intro hP
    rw [crawlLoop, if_pos hx]
    exact hP
  | case2 x hx hq =>
    intro hP
    rw [crawlLoop, if_neg hx]
    split
    · exact hP
    · rename_i n rest heq
      rw [hq] at heq; cases heq
  | case3 x hx route rest hq hp hv ih =>
    intro hP
    rw [crawlLoop, if_neg hx]
    split
    · rename_i heq
      rw [hq] at heq; cases heq
    · rename_i n' rest' heq
      rw [hq] at heq
      injection heq with e1 e2
      subst e1; subst e2
      rw [dif_pos hp, if_pos hv]
      exact ih (hskip x route rest (by simpa using hx) hq hp hv hP)
  | case4 x hx route rest hq hp hv ih =>
    intro hP
    rw [crawlLoop, if_neg hx]
    split
    · rename_i heq
      rw [hq] at heq; cases heq
    · rename_i n' rest' heq
      rw [hq] at heq
      injection heq with e1 e2
      subst e1; subst e2
      rw [dif_pos hp, if_neg hv]
      exact ih (hstep x route rest (by simpa using hx) hq hp hv hP)
  | case5 x hx route rest hq hp =>
    intro hP
    rw [crawlLoop, if_neg hx]
    split
    · exact hP
    · rename_i n' rest' heq
      rw [hq] at heq
      injection heq with e1 e2
      subst e1; subst e2
      rw [dif_neg hp]
      exact hP

/-- The loop only stops with an empty frontier, an exhausted budget, or
an uncaught analyzer exception. -/
theorem crawlLoop_final (cfg : CrawlConfig) (maxPages : Nat) (s : CrawlSt) :
    (crawlLoop cfg maxPages s).queue = []
    ∨ ¬ (crawlLoop cfg maxPages s).pagesCrawled < maxPages
    ∨ (crawlLoop cfg maxPages s).crashed.isSome = true := by
  induction s using crawlLoop.induct cfg maxPages with
  | case1 x hx =>
    rw [crawlLoop, if_pos hx]
    exact Or.inr (Or.inr hx)
  | case2 x hx hq =>
    rw [crawlLoop, if_neg hx]
    split
    · rename_i heq
      exact Or.inl heq
    · rename_i n rest heq
      rw [hq] at heq; cases heq
  | case3 x hx route rest hq hp hv ih =>
    rw [crawlLoop, if_neg hx]
    split
    · rename_i heq
      rw [hq] at heq; cases heq
    · rename_i n' rest' heq
      rw [hq] at heq
      injection heq with e1 e2
      subst e1; subst e2
      rw [dif_pos hp, if_pos hv]
      exact ih
  | case4 x hx route rest hq hp hv ih =>
    rw [crawlLoop, if_neg hx]
    split
    · rename_i heq
      rw [hq] at heq; cases heq
    · rename_i n' rest' heq
      rw [hq] at heq
      injection heq with e1 e2
      subst e1; subst e2
      rw [dif_pos hp, if_neg hv]
      exact ih
  | case5 x hx route rest hq hp =>
    rw [crawlLoop, if_neg hx]
    split
    · rename_i heq
      exact Or.inl heq
    · rename_i n' rest' heq
      rw [hq] at heq
      injection heq with e1 e2
      subst e1; subst e2
      rw [dif_neg hp]
      exact Or.inr (Or.inl hp)

/-- A run only ever aborts because of an analyzer invocation: a crash
implies an `analyzeCall` event in the trace. -/
theorem crawl_crash_needs_call (cfg : CrawlConfig) (maxPages : Nat) :
    (crawl cfg maxPages).crashed = none
    ∨ ∃ r l, CrawlEvent.analyzeCall r l ∈ (crawl cfg maxPages).trace := by
  rw [crawl]
  refine crawlLoop_invariant cfg maxPages
    (fun s : CrawlSt => s.crashed = none
      ∨ ∃ r l, CrawlEvent.analyzeCall r l ∈ s.trace)
    (fun s route rest _ _ _ _ hP => hP)
    ?_ initialCrawlSt (Or.inl rfl)
  intro s route rest hcr hq hp hv hP
  have hsn : s.crashed = none := by
    cases hcs : s.crashed with
    | none => rfl
    | some e =>
      rw [hcs] at hcr
      simp at hcr
  rcases processRoute_crash_from_call cfg route
      { s with queue := rest, visited := route :: s.visited,
               pagesCrawled := s.pagesCrawled + 1 } with h | h
  · exact Or.inl (h.trans hsn)
  · exact Or.inr h

theorem witnessCfg_crawl_eval : crawl witnessCfg 2 =
    { queue := [], visited := [rootRoute], pagesCrawled := 1, issues := [],
      trace := [.srcAttempt rootRoute true, .linkExtract rootRoute,
        .tgtAttempt rootRoute (str "fr") true, .analyzeCall rootRoute (str "fr")],
      crashed := none } := by
  have h1 : processRoute witnessCfg rootRoute
      { queue := [], visited := [rootRoute], pagesCrawled := 1, issues := [],
        trace := [], crashed := none } =
      { queue := [], visited := [rootRoute], pagesCrawled := 1, issues := [],
        trace := [.srcAttempt rootRoute true, .linkExtract rootRoute,
          .tgtAttempt rootRoute (str "fr") true, .analyzeCall rootRoute (str "fr")],
        crashed := none } := by decide
  have e1 : crawl witnessCfg 2 = crawlLoop witnessCfg 2
      (processRoute witnessCfg rootRoute
        { queue := [], visited := [rootRoute], pagesCrawled := 1, issues := [],
          trace := [], crashed := none }) := by
    rw [crawl, crawlLoop]
    exact rfl
  rw [e1, h1, crawlLoop]
  exact rfl

theorem witnessCfgFail_crawl_eval : crawl witnessCfgFail 2 =
    { queue := [], visited := [rootRoute], pagesCrawled := 1, issues := [],
      trace := [.srcAttempt rootRoute false], crashed := none } := by
  have h1 : processRoute witnessCfgFail rootRoute
      { queue := [], visited := [rootRoute], pagesCrawled := 1, issues := [],
        trace := [], crashed := none } =
      { queue := [], visited := [rootRoute], pagesCrawled := 1, issues := [],
        trace := [.srcAttempt rootRoute false], crashed := none } := by decide
  have e1 : crawl witnessCfgFail 2 = crawlLoop witnessCfgFail 2
      (processRoute witnessCfgFail rootRoute
        { queue := [], visited := [rootRoute], pagesCrawled := 1, issues := [],
          trace := [], crashed := none }) := by
    rw [crawl, crawlLoop]
    exact rfl
  rw [e1, h1, crawlLoop]
  exact rfl

theorem witnessCfgNoKey_crawl_eval : crawl witnessCfgNoKey 2 =
    { queue := [], visited := [rootRoute], pagesCrawled := 1, issues := [],
      trace := [.srcAttempt rootRoute true, .linkExtract rootRoute,
        .tgtAttempt rootRoute (str "fr") true, .analyzeCall rootRoute (str "fr")],
      crashed := some keyErrMsg } := by
  have h1 : processRoute witnessCfgNoKey rootRoute
      { queue := [], visited := [rootRoute], pagesCrawled := 1, issues := [],
        trace := [], crashed := none } =
      { queue := [], visited := [rootRoute], pagesCrawled := 1, issues := [],
        trace := [.srcAttempt rootRoute true, .linkExtract rootRoute,
          .tgtAttempt rootRoute (str "fr") true, .analyzeCall rootRoute (str "fr")],
        crashed := some keyErrMsg } := by decide
  have e1 : crawl witnessCfgNoKey 2 = crawlLoop witnessCfgNoKey 2
      (processRoute witnessCfgNoKey rootRoute
        { queue := [], visited := [rootRoute], pagesCrawled := 1, issues := [],
          trace := [], crashed := none }) := by
    rw [crawl, crawlLoop]
    exact rfl
  rw [e1, h1, crawlLoop]
  exact rfl

theorem srcAttemptRoute_eq_none {e : CrawlEvent} (h : isSrcAttempt e = false) :
    srcAttemptRoute e = none := by
  cases e <;> first | rfl | (exact absurd h (by simp [isSrcAttempt]))

/-- **C1.** No route is processed twice in a run: the routes submitted
to source navigation (each recorded by a `srcAttempt` event exactly
when dequeued unvisited) are pairwise distinct — duplicates in the
frontier are tolerated but discarded at dequeue with no event — and
every non-enqueue event (extraction, navigation, screenshot,
analysis) belongs to one of those processed routes. -/
theorem crawl_processes_once (cfg : CrawlConfig) (maxPages : Nat) :
    (processedRoutes (crawl cfg maxPages).trace).Nodup
    ∧ ∀ e ∈ (crawl cfg maxPages).trace, isEnqueue e = false →
        eventRoute e ∈ processedRoutes (crawl cfg maxPages).trace := by
  have hinv :
      (fun s : CrawlSt => s.visited.Nodup
        ∧ processedRoutes s.trace = s.visited.reverse
        ∧ ∀ e ∈ s.trace, isEnqueue e = false → eventRoute e ∈ s.visited)
      (crawlLoop cfg maxPages initialCrawlSt) := by
    refine crawlLoop_invariant cfg maxPages
      (fun s : CrawlSt => s.visited.Nodup
        ∧ processedRoutes s.trace = s.visited.reverse
        ∧ ∀ e ∈ s.trace, isEnqueue e = false → eventRoute e ∈ s.visited)
      ?_ ?_ initialCrawlSt
      ⟨List.nodup_nil, rfl, fun e he => absurd he (List.not_mem_nil e)⟩
    · intro s route rest _ _ _ _ hP
      exact hP
    · intro s route rest _ _ _ hv hP
      obtain ⟨hnd, hpr, hev⟩ := hP
      obtain ⟨hvis, qs, tl, hq, ht, _, _, _, hsrc, hroute, _⟩ :=
        processRoute_spec cfg route
          { s with queue := rest, visited := route :: s.visited,
                   pagesCrawled := s.pagesCrawled + 1 }
      have htl : tl.filterMap srcAttemptRoute = [] := by
        rw [List.filterMap_eq_nil_iff]
        exact fun e he => srcAttemptRoute_eq_none (hsrc e he)
      refine ⟨?_, ?_, ?_⟩
      · rw [hvis]
        exact List.nodup_cons.mpr ⟨hv, hnd⟩
      · rw [ht, hvis]
        show (s.trace
            ++ CrawlEvent.srcAttempt route (cfg.navOk (srcUrl cfg route)) :: tl).filterMap
              srcAttemptRoute
          = (route :: s.visited).reverse
        have hsome : srcAttemptRoute
            (CrawlEvent.srcAttempt route (cfg.navOk (srcUrl cfg route)))
            = some route := rfl
        have hpr' : s.trace.filterMap srcAttemptRoute = s.visited.reverse := hpr
        simp only [List.filterMap_append, List.filterMap_cons, hsome, htl, hpr',
          List.reverse_cons]
      · intro e he hne
        rw [hvis]
        rw [ht] at he
        rcases List.mem_append.mp he with he' | he'
        · exact List.mem_cons_of_mem _ (hev e he' hne)
        · rcases List.mem_cons.mp he' with rfl | he''
          · exact List.mem_cons_self _ _
          · rw [hroute e he'' hne]
            exact List.mem_cons_self _ _
  obtain ⟨hnd, hpr, hev⟩ := hinv
  rw [crawl]
  constructor
  · rw [hpr]
    exact List.nodup_reverse.mpr hnd
  · intro e he hne
    rw [hpr, List.mem_reverse]
    exact hev e he hne

/-- Witness for C1 at a concrete run of one page. -/
theorem crawl_processes_once_witness :
    (processedRoutes (crawl witnessCfg 2).trace).Nodup
    ∧ eventRoute (.linkExtract rootRoute)
        ∈ processedRoutes (crawl witnessCfg 2).trace :=
  ⟨(crawl_processes_once witnessCfg 2).1,
   (crawl_processes_once witnessCfg 2).2 (.linkExtract rootRoute)
     (by rw [witnessCfg_crawl_eval]; decide) rfl⟩

/-- **C5.** A route whose source-side navigation/screenshot fails is
abandoned entirely: its failed `srcAttempt` is the only event of that
route apart from earlier frontier enqueues — no link extraction, no
target navigation, no analyzer call — and the route is never enqueued
again after the failure.  The run continues with the next queued
route: the failure itself never aborts the run (any abort stems from
an analyzer invocation, which this route never makes), and absent a
crash the loop runs on until the frontier is empty or the page budget
is exhausted. -/
theorem crawl_source_failure_abandons (cfg : CrawlConfig) (maxPages : Nat)
    (r : Str) (hnav : cfg.navOk (srcUrl cfg r) = false)
    (hmem : CrawlEvent.srcAttempt r false ∈ (crawl cfg maxPages).trace) :
    (∃ t1 t2, (crawl cfg maxPages).trace = t1 ++ .srcAttempt r false :: t2
      ∧ (∀ e ∈ t1, eventRoute e = r → e = .enqueue r)
      ∧ (∀ e ∈ t2, eventRoute e ≠ r))
    ∧ ((crawl cfg maxPages).crashed = none
        ∨ ∃ r' l, CrawlEvent.analyzeCall r' l ∈ (crawl cfg maxPages).trace)
    ∧ ((crawl cfg maxPages).crashed = none →
        (crawl cfg maxPages).queue = []
        ∨ ¬ (crawl cfg maxPages).pagesCrawled < maxPages) := by
  refine ⟨?dec, crawl_crash_needs_call cfg maxPages, ?cont⟩
  case cont =>
    intro hnone
    rcases crawlLoop_final cfg maxPages initialCrawlSt with hq | hb | hc
    · exact Or.inl (by rw [crawl]; exact hq)
    · exact Or.inr (by rw [crawl]; exact hb)
    · rw [crawl] at hnone
      rw [hnone] at hc
      simp at hc
  have hinv :
      (fun s : CrawlSt =>
        (r ∉ s.visited ∧ ∀ e ∈ s.trace, eventRoute e = r → e = .enqueue r)
        ∨ (r ∈ s.visited ∧ ∃ t1 t2,
            s.trace = t1 ++ .srcAttempt r false :: t2
            ∧ (∀ e ∈ t1, eventRoute e = r → e = .enqueue r)
            ∧ (∀ e ∈ t2, eventRoute e ≠ r)))
      (crawlLoop cfg maxPages initialCrawlSt) := by
    refine crawlLoop_invariant cfg maxPages
      (fun s : CrawlSt =>
        (r ∉ s.visited ∧ ∀ e ∈ s.trace, eventRoute e = r → e = .enqueue r)
        ∨ (r ∈ s.visited ∧ ∃ t1 t2,
            s.trace = t1 ++ .srcAttempt r false :: t2
            ∧ (∀ e ∈ t1, eventRoute e = r → e = .enqueue r)
            ∧ (∀ e ∈ t2, eventRoute e ≠ r)))
      ?_ ?_ initialCrawlSt
      (Or.inl ⟨List.not_mem_nil r, fun e he => absurd he (List.not_mem_nil e)⟩)
    · intro s route rest _ _ _ _ hP
      exact hP
    · intro s route rest _ _ _ hv hP
      obtain ⟨hvis, qs, tl, hq, ht, hfail, hmemq, _, hsrc, hroute, henq⟩ :=
        processRoute_spec cfg route
          { s with queue := rest, visited := route :: s.visited,
                   pagesCrawled := s.pagesCrawled + 1 }
      by_cases hr : route = r
      · subst hr
        rcases hP with ⟨_, hall⟩ | ⟨hin, _⟩
        · obtain ⟨hqs, htl⟩ := hfail hnav
          refine Or.inr ⟨by rw [hvis]; exact List.mem_cons_self _ _,
            s.trace, [], ?_, hall, by simp⟩
          rw [ht, htl, hnav]
        · exact absurd hin hv
      · rcases hP with ⟨hnin, hall⟩ | ⟨hin, t1, t2, htr, h1, h2⟩
        · refine Or.inl ⟨?_, ?_⟩
          · rw [hvis]
            intro hc
            rcases List.mem_cons.mp hc with he | he
            · exact hr he.symm
            · exact hnin he
          · intro e he hre
            rw [ht] at he
            rcases List.mem_append.mp he with he' | he'
            · exact hall e he' hre
            · rcases List.mem_cons.mp he' with rfl | he''
              · exact absurd hre hr
              · cases hie : isEnqueue e with
                | false => exact absurd (hroute e he'' hie ▸ hre) hr
                | true =>
                  obtain ⟨x, _, hex⟩ := henq e he'' hie
                  subst hex
                  exact congrArg CrawlEvent.enqueue hre
        · refine Or.inr ⟨by rw [hvis]; exact List.mem_cons_of_mem _ hin,
            t1, t2 ++ .srcAttempt route (cfg.navOk (srcUrl cfg route)) :: tl,
            ?_, h1, ?_⟩
          · rw [ht, htr]
            simp
          · intro e he
            rcases List.mem_append.mp he with he' | he'
            · exact h2 e he'
            · rcases List.mem_cons.mp he' with rfl | he''
              · exact fun hre => hr hre
              · cases hie : isEnqueue e with
                | false => exact fun hre => hr (hroute e he'' hie ▸ hre)
                | true =>
                  obtain ⟨x, hxq, hex⟩ := henq e he'' hie
                  subst hex
                  intro hre
                  have hx : x ∉ route :: s.visited := (hmemq x hxq).2
                  exact hx (by
                    rw [show eventRoute (CrawlEvent.enqueue x) = x from rfl] at hre
                    rw [hre]
                    exact List.mem_cons_of_mem _ hin)
  rcases hinv with ⟨_, hall⟩ | ⟨_, t1, t2, htr, h1, h2⟩
  · rw [crawl] at hmem
    have := hall _ hmem rfl
    cases this
  · exact ⟨t1, t2, by rw [crawl, htr], h1, h2⟩

/-- Witness for C5: a run in which the root route's source navigation
fails. -/
theorem crawl_source_failure_abandons_witness :
    (∃ t1 t2, (crawl witnessCfgFail 2).trace
        = t1 ++ .srcAttempt rootRoute false :: t2
      ∧ (∀ e ∈ t1, eventRoute e = rootRoute → e = .enqueue rootRoute)
      ∧ (∀ e ∈ t2, eventRoute e ≠ rootRoute))
    ∧ ((crawl witnessCfgFail 2).crashed = none
        ∨ ∃ r' l, CrawlEvent.analyzeCall r' l ∈ (crawl witnessCfgFail 2).trace)
    ∧ ((crawl witnessCfgFail 2).crashed = none →
        (crawl witnessCfgFail 2).queue = []
        ∨ ¬ (crawl witnessCfgFail 2).pagesCrawled < 2) :=
  crawl_source_failure_abandons witnessCfgFail 2 rootRoute rfl
    (by rw [witnessCfgFail_crawl_eval]; decide)

/-- **C6 (counterexample).** With `GEMINI_API_KEY` unset, a crawl run
does abort (the analyzer's `RuntimeError` is uncaught), but not
"before any work is performed": source navigation and screenshot work
had already happened before the abort. -/
theorem missing_key_counterexample :
    (crawl witnessCfgNoKey 2).crashed = some keyErrMsg
    ∧ CrawlEvent.srcAttempt rootRoute true ∈ (crawl witnessCfgNoKey 2).trace := by
  rw [witnessCfgNoKey_crawl_eval]
  exact ⟨rfl, by decide⟩

/-- **C6 (amended).** With no credential configured, the analyzer
raises immediately — before doing any of its own work (the result does
not depend on the remote oracle) — and in `crawl_and_analyze` the error
is uncaught: either the run crashes with exactly that error, or the
analyzer was never invoked; and a run whose trace holds no analyzer
invocation does not abort at all.  Work preceding the first analyzer
invocation (navigation, screenshots) may already have happened. -/
theorem missing_key_amended (env : Env) (gemini : Str → Str → Str)
    (sp tp : Str) (cfg : CrawlConfig) (maxPages : Nat)
    (henv : env.lookup geminiKeyName = none)
    (hcfg : cfg.env.lookup geminiKeyName = none) :
    analyzeLocalization env gemini sp tp = .error keyErrMsg
    ∧ ((crawl cfg maxPages).crashed = some keyErrMsg
       ∨ ∀ r l, CrawlEvent.analyzeCall r l ∉ (crawl cfg maxPages).trace)
    ∧ ((∀ r l, CrawlEvent.analyzeCall r l ∉ (crawl cfg maxPages).trace) →
        (crawl cfg maxPages).crashed = none) := by
  refine ⟨keyMissing_analyze henv gemini sp tp, ?main, ?noabort⟩
  case noabort =>
    intro hno
    rcases crawl_crash_needs_call cfg maxPages with h | ⟨r', l', hmem'⟩
    · exact h
    · exact absurd hmem' (hno r' l')
  have hinv :
      (fun s : CrawlSt => s.crashed = some keyErrMsg
        ∨ ∀ r l, CrawlEvent.analyzeCall r l ∉ s.trace)
      (crawlLoop cfg maxPages initialCrawlSt) := by
    refine crawlLoop_invariant cfg maxPages
      (fun s : CrawlSt => s.crashed = some keyErrMsg
        ∨ ∀ r l, CrawlEvent.analyzeCall r l ∉ s.trace)
      ?_ ?_ initialCrawlSt
      (Or.inr (fun r l hl => absurd hl (List.not_mem_nil _)))
    · intro s route rest _ _ _ _ hP
      exact hP
    · intro s route rest hcr _ _ _ hP
      rcases hP with hl | hr
      · rw [hl] at hcr
        cases hcr
      · exact processRoute_c6 cfg hcfg route _ hr
  rw [crawl]
  exact hinv

/-- **C2.** The returned page count never exceeds the budget, no
matter how many links every page yields; and when navigation always
succeeds (and the run can complete: credential present, reachable set
finite so that it has a count), the count equals
`min(reachableRoutes, maxPages)`.  The count reflects dequeued,
processed routes, not discovered ones. -/
theorem crawl_budget_min (cfg : CrawlConfig) (maxPages : Nat) :
    (crawl cfg maxPages).pagesCrawled ≤ maxPages
    ∧ ((∀ u, cfg.navOk u = true) → keyOk cfg.env → (reachSet cfg).Finite →
        (crawl cfg maxPages).pagesCrawled = min (reachSet cfg).ncard maxPages) := by
  constructor
  · have hinv := crawlLoop_invariant cfg maxPages
      (fun s : CrawlSt => s.pagesCrawled ≤ maxPages)
      (fun s route rest _ _ _ _ hP => hP)
      (fun s route rest _ _ hp _ _ => by
        show (processRoute cfg route
          { s with queue := rest, visited := route :: s.visited,
                   pagesCrawled := s.pagesCrawled + 1 }).pagesCrawled ≤ maxPages
        rw [processRoute_pagesCrawled]
        show s.pagesCrawled + 1 ≤ maxPages
        omega)
      initialCrawlSt (Nat.zero_le _)
    rw [crawl]
    exact hinv
  · intro hnav hkey hfin
    have hinv := crawlLoop_invariant cfg maxPages
      (fun s : CrawlSt => s.crashed = none
        ∧ s.visited.Nodup
        ∧ s.pagesCrawled = s.visited.length
        ∧ s.pagesCrawled ≤ maxPages
        ∧ (∀ r ∈ s.visited, ReachableR cfg r)
        ∧ (∀ r ∈ s.queue, ReachableR cfg r)
        ∧ (∀ r ∈ s.visited, ∀ x ∈ succs cfg r, x ∈ s.visited ∨ x ∈ s.queue)
        ∧ (rootRoute ∈ s.visited ∨ rootRoute ∈ s.queue))
      ?_ ?_ initialCrawlSt ?_
    rotate_left
    · -- discard-visited step
      intro s route rest hcr hq hp hv hP
      obtain ⟨h1, h2, h3, h4, h5, h6, h7, h8⟩ := hP
      refine ⟨h1, h2, h3, h4, h5, ?_, ?_, ?_⟩
      · intro r hr
        exact h6 r (by rw [hq]; exact List.mem_cons_of_mem _ hr)
      · intro r hr x hx
        rcases h7 r hr x hx with h | h
        · exact Or.inl h
        · rw [hq] at h
          rcases List.mem_cons.mp h with rfl | h'
          · exact Or.inl hv
          · exact Or.inr h'
      · rcases h8 with h | h
        · exact Or.inl h
        · rw [hq] at h
          rcases List.mem_cons.mp h with rfl | h'
          · exact Or.inl hv
          · exact Or.inr h'
    · -- process step
      intro s route rest hcr hq hp hv hP
      obtain ⟨h1, h2, h3, h4, h5, h6, h7, h8⟩ := hP
      obtain ⟨hvis, qs, tl, hqe, hte, _, hmemq, hcov, _, _, _⟩ :=
        processRoute_spec cfg route
          { s with queue := rest, visited := route :: s.visited,
                   pagesCrawled := s.pagesCrawled + 1 }
      have hrr : ReachableR cfg route :=
        h6 route (by rw [hq]; exact List.mem_cons_self _ _)
      refine ⟨?_, ?_, ?_, ?_, ?_, ?_, ?_, ?_⟩
      · rw [processRoute_crashed_keyOk cfg hkey]
        exact h1
      · rw [hvis]
        exact List.nodup_cons.mpr ⟨hv, h2⟩
      · rw [processRoute_pagesCrawled, hvis]
        show s.pagesCrawled + 1 = (route :: s.visited).length
        rw [h3, List.length_cons]
      · rw [processRoute_pagesCrawled]
        show s.pagesCrawled + 1 ≤ maxPages
        omega
      · rw [hvis]
        intro r hr
        rcases List.mem_cons.mp hr with rfl | hr'
        · exact hrr
        · exact h5 r hr'
      · rw [hqe]
        intro r hr
        rcases List.mem_append.mp hr with hr' | hr'
        · exact h6 r (by rw [hq]; exact List.mem_cons_of_mem _ hr')
        · exact ReachableR.step hrr (hmemq r hr').1
      · rw [hvis, hqe]
        intro r hr x hx
        rcases List.mem_cons.mp hr with rfl | hr'
        · by_cases hxv : x ∈ r :: s.visited
          · exact Or.inl hxv
          · exact Or.inr (List.mem_append.mpr
              (Or.inr (hcov (hnav (srcUrl cfg r)) x hx hxv)))
        · rcases h7 r hr' x hx with h | h
          · exact Or.inl (List.mem_cons_of_mem _ h)
          · rw [hq] at h
            rcases List.mem_cons.mp h with rfl | h'
            · exact Or.inl (List.mem_cons_self _ _)
            · exact Or.inr (List.mem_append.mpr (Or.inl h'))
      · rw [hvis, hqe]
        rcases h8 with h | h
        · exact Or.inl (List.mem_cons_of_mem _ h)
        · rw [hq] at h
          rcases List.mem_cons.mp h with rfl | h'
          · exact Or.inl (List.mem_cons_self _ _)
          · exact Or.inr (List.mem_append.mpr (Or.inl h'))
    · -- initial state
      refine ⟨rfl, List.nodup_nil, rfl, Nat.zero_le _,
        fun r hr => absurd hr (List.not_mem_nil r), ?_,
        fun r hr => absurd hr (List.not_mem_nil r),
        Or.inr (List.mem_cons_self _ _)⟩
      intro r hr
      rcases List.mem_cons.mp hr with rfl | hr'
      · exact ReachableR.root
      · exact absurd hr' (List.not_mem_nil r)
    · -- conclude from the invariant and the loop's stopping condition
      obtain ⟨hcr, hnd, hlen, hle, hvr, hqr, hcl, hroot⟩ := hinv
      rcases crawlLoop_final cfg maxPages initialCrawlSt with hqe | hbud | hcrash
      · -- frontier exhausted: visited = reachable
        have hiff : ∀ x, ReachableR cfg x ↔
            x ∈ (crawlLoop cfg maxPages initialCrawlSt).visited := by
          intro x
          constructor
          · intro hx
            induction hx with
            | root =>
              rcases hroot with h | h
              · exact h
              · rw [hqe] at h
                cases h
            | step hr hs ih =>
              rcases hcl _ ih _ hs with h | h
              · exact h
              · rw [hqe] at h
                cases h
          · exact hvr x
        have hset : reachSet cfg
            = { x | x ∈ (crawlLoop cfg maxPages initialCrawlSt).visited } :=
          Set.ext hiff
        have hncard : (reachSet cfg).ncard
            = (crawlLoop cfg maxPages initialCrawlSt).visited.length := by
          rw [hset, ← List.coe_toFinset, Set.ncard_coe_Finset,
            List.toFinset_card_of_nodup hnd]
        rw [crawl, hlen, hncard]
        omega
      · -- budget exhausted: at least maxPages reachable routes
        have hsub : ↑(crawlLoop cfg maxPages initialCrawlSt).visited.toFinset
            ⊆ reachSet cfg := by
          intro x hx
          rw [Set.mem_def] at hx
          exact hvr x (by
            have := List.mem_toFinset.mp hx
            exact this)
        have hge : (crawlLoop cfg maxPages initialCrawlSt).visited.length
            ≤ (reachSet cfg).ncard := by
          rw [← List.toFinset_card_of_nodup hnd, ← Set.ncard_coe_Finset]
          exact Set.ncard_le_ncard hsub hfin
        rw [crawl]
        omega
      · rw [hcr] at hcrash
        cases hcrash

/-- Witness for C2 at a one-page site with the budget not reached. -/
theorem crawl_budget_min_witness :
    (crawl witnessCfg 3).pagesCrawled ≤ 3
    ∧ (crawl witnessCfg 3).pagesCrawled = min (reachSet witnessCfg).ncard 3 := by
  have hone : reachSet witnessCfg = {rootRoute} := by
    apply Set.ext
    intro x
    constructor
    · intro hx
      induction hx with
      | root => rfl
      | step hr hs ih => exact absurd hs (List.not_mem_nil _)
    · intro hx
      rw [Set.mem_singleton_iff] at hx
      subst hx
      exact ReachableR.root
  exact ⟨(crawl_budget_min witnessCfg 3).1,
    (crawl_budget_min witnessCfg 3).2 (fun u => rfl)
      ⟨str "k", rfl, by decide⟩ (by rw [hone]; exact Set.finite_singleton _)⟩

/-! ## FTL matching lemmas -/

theorem ftlFiles_spec (env : Env) (gemini : Str → Str → Str)
    (hkey : keyOk env) (dk t sdir tdir : Str) (files : List Str) (st : FtlSt)
    (herr : st.err = none) :
    (ftlFiles env gemini dk t sdir tdir files st).err = none
    ∧ (ftlFiles env gemini dk t sdir tdir files st).calls
        = st.calls ++ files.map (fun f => ⟨dk, t, f⟩)
    ∧ (ftlFiles env gemini dk t sdir tdir files st).skips = st.skips := by
  induction files generalizing st with
  | nil => exact ⟨herr, by simp [ftlFiles], rfl⟩
  | cons f rest ih =>
    have hni : ¬ (st.err.isSome = true) := by
      rw [herr]
      simp
    have hred : ftlFiles env gemini dk t sdir tdir (f :: rest) st
        = ftlFiles env gemini dk t sdir tdir rest
            (if reportsNoIssues (gemini (pjoin sdir f) (pjoin tdir f)) then
              { st with calls := st.calls ++ [⟨dk, t, f⟩] }
             else
              { st with
                  calls := st.calls ++ [⟨dk, t, f⟩],
                  issues := st.issues
                    ++ [⟨dk, t, f, gemini (pjoin sdir f) (pjoin tdir f)⟩] }) := by
      rw [ftlFiles, if_neg hni, keyOk_analyze hkey]
    rw [hred]
    by_cases hrep : reportsNoIssues (gemini (pjoin sdir f) (pjoin tdir f)) = true
    · rw [if_pos hrep]
      obtain ⟨h1, h2, h3⟩ := ih { st with calls := st.calls ++ [⟨dk, t, f⟩] } herr
      exact ⟨h1, by rw [h2]; simp, h3⟩
    · rw [if_neg hrep]
      obtain ⟨h1, h2, h3⟩ := ih
        { st with
            calls := st.calls ++ [⟨dk, t, f⟩],
            issues := st.issues
              ++ [⟨dk, t, f, gemini (pjoin sdir f) (pjoin tdir f)⟩] }
        herr
      exact ⟨h1, by rw [h2]; simp, h3⟩

theorem mem_matched_map {fs : FS} {dk t tdir : Str} {srcPngs : List Str}
    {c : FtlCall} :
    c ∈ (sortStr (srcPngs.filter (fun f => decide (f ∈ pngList fs tdir)))).map
        (fun f => (⟨dk, t, f⟩ : FtlCall))
    ↔ ∃ f, f ∈ srcPngs ∧ f ∈ pngList fs tdir ∧ c = ⟨dk, t, f⟩ := by
  rw [List.mem_map]
  constructor
  · rintro ⟨f, hf, rfl⟩
    rw [sortStr, List.mem_mergeSort, List.mem_filter] at hf
    exact ⟨f, hf.1, by simpa using hf.2, rfl⟩
  · rintro ⟨f, h1, h2, rfl⟩
    exact ⟨f, by
      rw [sortStr, List.mem_mergeSort, List.mem_filter]
      exact ⟨h1, by simpa using h2⟩, rfl⟩

theorem ftlTargets_spec (env : Env) (gemini : Str → Str → Str)
    (hkey : keyOk env) (fs : FS) (dk : Str) (ldirs : LocaleDirs) (sdir : Str)
    (srcPngs : List Str) (ts : List Str) (st : FtlSt) (herr : st.err = none) :
    (ftlTargets env gemini fs dk ldirs sdir srcPngs ts st).err = none
    ∧ (∀ c, c ∈ (ftlTargets env gemini fs dk ldirs sdir srcPngs ts st).calls
        ↔ c ∈ st.calls
          ∨ ∃ t ∈ ts, ∃ tdir, alGet ldirs t = some tdir
              ∧ ∃ f, f ∈ srcPngs ∧ f ∈ pngList fs tdir ∧ c = ⟨dk, t, f⟩)
    ∧ (∀ k, k ∈ (ftlTargets env gemini fs dk ldirs sdir srcPngs ts st).skips
        ↔ k ∈ st.skips
          ∨ ∃ t ∈ ts, ∃ tdir, alGet ldirs t = some tdir
              ∧ k = ⟨dk, t, skipCount srcPngs (pngList fs tdir)⟩
              ∧ skipCount srcPngs (pngList fs tdir) ≠ 0) := by
  induction ts generalizing st with
  | nil =>
    refine ⟨herr, fun c => ?_, fun k => ?_⟩
    · simp [ftlTargets]
    · simp [ftlTargets]
  | cons t ts ih =>
    have hni : ¬ (st.err.isSome = true) := by
      rw [herr]
      simp
    cases halg : alGet ldirs t with
    | none =>
      have hred : ftlTargets env gemini fs dk ldirs sdir srcPngs (t :: ts) st
          = ftlTargets env gemini fs dk ldirs sdir srcPngs ts st := by
        rw [ftlTargets, if_neg hni, halg]
      rw [hred]
      obtain ⟨h1, h2, h3⟩ := ih st herr
      refine ⟨h1, fun c => ?_, fun k => ?_⟩
      · rw [h2 c]
        constructor
        · rintro (hc | ⟨t', ht', rest⟩)
          · exact Or.inl hc
          · exact Or.inr ⟨t', List.mem_cons_of_mem _ ht', rest⟩
        · rintro (hc | ⟨t', ht', tdir, htdir, rest⟩)
          · exact Or.inl hc
          · rcases List.mem_cons.mp ht' with rfl | ht''
            · rw [halg] at htdir
              cases htdir
            · exact Or.inr ⟨t', ht'', tdir, htdir, rest⟩
      · rw [h3 k]
        constructor
        · rintro (hk | ⟨t', ht', rest⟩)
          · exact Or.inl hk
          · exact Or.inr ⟨t', List.mem_cons_of_mem _ ht', rest⟩
        · rintro (hk | ⟨t', ht', tdir, htdir, rest⟩)
          · exact Or.inl hk
          · rcases List.mem_cons.mp ht' with rfl | ht''
            · rw [halg] at htdir
              cases htdir
            · exact Or.inr ⟨t', ht'', tdir, htdir, rest⟩
    | some tdir =>
      have hred : ftlTargets env gemini fs dk ldirs sdir srcPngs (t :: ts) st
          = ftlTargets env gemini fs dk ldirs sdir srcPngs ts
              (ftlFiles env gemini dk t sdir tdir
                (sortStr (srcPngs.filter (fun f => decide (f ∈ pngList fs tdir))))
                (if skipCount srcPngs (pngList fs tdir) ≠ 0 then
                  { st with skips := st.skips
                      ++ [⟨dk, t, skipCount srcPngs (pngList fs tdir)⟩] }
                 else st)) := by
        rw [ftlTargets, if_neg hni, halg]
      have herr1 : (if skipCount srcPngs (pngList fs tdir) ≠ 0 then
          { st with skips := st.skips
              ++ [⟨dk, t, skipCount srcPngs (pngList fs tdir)⟩] }
         else st).err = none := by
        split <;> exact herr
      obtain ⟨hf1, hf2, hf3⟩ := ftlFiles_spec env gemini hkey dk t sdir tdir
        (sortStr (srcPngs.filter (fun f => decide (f ∈ pngList fs tdir)))) _ herr1
      obtain ⟨h1, h2, h3⟩ := ih _ hf1
      rw [hred]
      refine ⟨h1, fun c => ?_, fun k => ?_⟩
      · rw [h2 c, hf2]
        have hc1 : (if skipCount srcPngs (pngList fs tdir) ≠ 0 then
            { st with skips := st.skips
                ++ [⟨dk, t, skipCount srcPngs (pngList fs tdir)⟩] }
           else st).calls = st.calls := by
          split <;> rfl
        rw [hc1]
        rw [List.mem_append]
        constructor
        · rintro ((hc | hc) | ⟨t', ht', rest⟩)
          · exact Or.inl hc
          · obtain ⟨f, h1', h2', h3'⟩ := mem_matched_map.mp hc
            exact Or.inr ⟨t, List.mem_cons_self _ _, tdir, halg, f, h1', h2', h3'⟩
          · exact Or.inr ⟨t', List.mem_cons_of_mem _ ht', rest⟩
        · rintro (hc | ⟨t', ht', tdir', htdir', f, hf', hf'', rfl⟩)
          · exact Or.inl (Or.inl hc)
          · rcases List.mem_cons.mp ht' with rfl | ht''
            · rw [halg] at htdir'
              injection htdir' with he
              subst he
              exact Or.inl (Or.inr (mem_matched_map.mpr ⟨f, hf', hf'', rfl⟩))
            · exact Or.inr ⟨t', ht'', tdir', htdir', f, hf', hf'', rfl⟩
      · rw [h3 k, hf3]
        have hk1 : ∀ x, x ∈ (if skipCount srcPngs (pngList fs tdir) ≠ 0 then
            { st with skips := st.skips
                ++ [⟨dk, t, skipCount srcPngs (pngList fs tdir)⟩] }
           else st).skips
            ↔ x ∈ st.skips
              ∨ (x = ⟨dk, t, skipCount srcPngs (pngList fs tdir)⟩
                  ∧ skipCount srcPngs (pngList fs tdir) ≠ 0) := by
          intro x
          split
          · rename_i hnz
            simp only [List.mem_append, List.mem_cons, List.not_mem_nil, or_false]
            exact ⟨fun h => h.imp id (fun he => ⟨he, hnz⟩),
              fun h => h.imp id And.left⟩
          · rename_i hz
            exact ⟨Or.inl, fun h => h.elim id (fun he => absurd he.2 hz)⟩
        rw [hk1 k]
        constructor
        · rintro ((hk | ⟨rfl, hnz⟩) | ⟨t', ht', rest⟩)
          · exact Or.inl hk
          · exact Or.inr ⟨t, List.mem_cons_self _ _, tdir, halg, rfl, hnz⟩
          · exact Or.inr ⟨t', List.mem_cons_of_mem _ ht', rest⟩
        · rintro (hk | ⟨t', ht', tdir', htdir', hke, hnz⟩)
          · exact Or.inl (Or.inl hk)
          · rcases List.mem_cons.mp ht' with rfl | ht''
            · rw [halg] at htdir'
              injection htdir' with he
              subst he
              exact Or.inl (Or.inr ⟨hke, hnz⟩)
            · exact Or.inr ⟨t', ht'', tdir', htdir', hke, hnz⟩

theorem ftlDevices_spec (env : Env) (gemini : Str → Str → Str)
    (hkey : keyOk env) (fs : FS) (srcLoc : Str) (targets : List Str)
    (gs : Groups) (st : FtlSt) (herr : st.err = none) :
    (ftlDevices env gemini fs srcLoc targets gs st).err = none
    ∧ (∀ c, c ∈ (ftlDevices env gemini fs srcLoc targets gs st).calls
        ↔ c ∈ st.calls
          ∨ ∃ dk ldirs, (dk, ldirs) ∈ gs
              ∧ ∃ sdir, alGet ldirs srcLoc = some sdir
              ∧ ∃ t ∈ targets, ∃ tdir, alGet ldirs t = some tdir
              ∧ ∃ f, f ∈ pngList fs sdir ∧ f ∈ pngList fs tdir
              ∧ c = ⟨dk, t, f⟩)
    ∧ (∀ k, k ∈ (ftlDevices env gemini fs srcLoc targets gs st).skips
        ↔ k ∈ st.skips
          ∨ ∃ dk ldirs, (dk, ldirs) ∈ gs
              ∧ ∃ sdir, alGet ldirs srcLoc = some sdir
              ∧ ∃ t ∈ targets, ∃ tdir, alGet ldirs t = some tdir
              ∧ k = ⟨dk, t, skipCount (pngList fs sdir) (pngList fs tdir)⟩
              ∧ skipCount (pngList fs sdir) (pngList fs tdir) ≠ 0) := by
  induction gs generalizing st with
  | nil =>
    refine ⟨herr, fun c => ?_, fun k => ?_⟩
    · simp [ftlDevices]
    · simp [ftlDevices]
  | cons g gsRest ih =>
    obtain ⟨dk, ldirs⟩ := g
    have hni : ¬ (st.err.isSome = true) := by
      rw [herr]
      simp
    cases halg : alGet ldirs srcLoc with
    | none =>
      have hred : ftlDevices env gemini fs srcLoc targets ((dk, ldirs) :: gsRest) st
          = ftlDevices env gemini fs srcLoc targets gsRest st := by
        rw [ftlDevices, if_neg hni, halg]
      rw [hred]
      obtain ⟨h1, h2, h3⟩ := ih st herr
      refine ⟨h1, fun c => ?_, fun k => ?_⟩
      · rw [h2 c]
        constructor
        · rintro (hc | ⟨dk', ldirs', hm, rest⟩)
          · exact Or.inl hc
          · exact Or.inr ⟨dk', ldirs', List.mem_cons_of_mem _ hm, rest⟩
        · rintro (hc | ⟨dk', ldirs', hm, sdir, hsd, rest⟩)
          · exact Or.inl hc
          · rcases List.mem_cons.mp hm with he | hm'
            · injection he with he1 he2
              subst he1; subst he2
              rw [halg] at hsd
              cases hsd
            · exact Or.inr ⟨dk', ldirs', hm', sdir, hsd, rest⟩
      · rw [h3 k]
        constructor
        · rintro (hk | ⟨dk', ldirs', hm, rest⟩)
          · exact Or.inl hk
          · exact Or.inr ⟨dk', ldirs', List.mem_cons_of_mem _ hm, rest⟩
        · rintro (hk | ⟨dk', ldirs', hm, sdir, hsd, rest⟩)
          · exact Or.inl hk
          · rcases List.mem_cons.mp hm with he | hm'
            · injection he with he1 he2
              subst he1; subst he2
              rw [halg] at hsd
              cases hsd
            · exact Or.inr ⟨dk', ldirs', hm', sdir, hsd, rest⟩
    | some sdir =>
      have hred : ftlDevices env gemini fs srcLoc targets ((dk, ldirs) :: gsRest) st
          = ftlDevices env gemini fs srcLoc targets gsRest
              (ftlTargets env gemini fs dk ldirs sdir (pngList fs sdir)
                targets st) := by
        rw [ftlDevices, if_neg hni, halg]
      obtain ⟨ht1, ht2, ht3⟩ := ftlTargets_spec env gemini hkey fs dk ldirs sdir
        (pngList fs sdir) targets st herr
      obtain ⟨h1, h2, h3⟩ := ih _ ht1
      rw [hred]
      refine ⟨h1, fun c => ?_, fun k => ?_⟩
      · rw [h2 c, ht2 c]
        constructor
        · rintro ((hc | ⟨t, htm, tdir, htd, f, hf1, hf2, rfl⟩) | ⟨dk', ldirs', hm, rest⟩)
          · exact Or.inl hc
          · exact Or.inr ⟨dk, ldirs, List.mem_cons_self _ _, sdir, halg,
              t, htm, tdir, htd, f, hf1, hf2, rfl⟩
          · exact Or.inr ⟨dk', ldirs', List.mem_cons_of_mem _ hm, rest⟩
        · rintro (hc | ⟨dk', ldirs', hm, sdir', hsd, t, htm, tdir, htd, f, hf1, hf2, rfl⟩)
          · exact Or.inl (Or.inl hc)
          · rcases List.mem_cons.mp hm with he | hm'
            · injection he with he1 he2
              subst he1; subst he2
              rw [halg] at hsd
              injection hsd with he3
              subst he3
              exact Or.inl (Or.inr ⟨t, htm, tdir, htd, f, hf1, hf2, rfl⟩)
            · exact Or.inr ⟨dk', ldirs', hm', sdir', hsd, t, htm, tdir, htd,
                f, hf1, hf2, rfl⟩
      · rw [h3 k, ht3 k]
        constructor
        · rintro ((hk | ⟨t, htm, tdir, htd, hke, hnz⟩) | ⟨dk', ldirs', hm, rest⟩)
          · exact Or.inl hk
          · exact Or.inr ⟨dk, ldirs, List.mem_cons_self _ _, sdir, halg,
              t, htm, tdir, htd, hke, hnz⟩
          · exact Or.inr ⟨dk', ldirs', List.mem_cons_of_mem _ hm, rest⟩
        · rintro (hk | ⟨dk', ldirs', hm, sdir', hsd, t, htm, tdir, htd, hke, hnz⟩)
          · exact Or.inl (Or.inl hk)
          · rcases List.mem_cons.mp hm with he | hm'
            · injection he with he1 he2
              subst he1; subst he2
              rw [halg] at hsd
              injection hsd with he3
              subst he3
              exact Or.inl (Or.inr ⟨t, htm, tdir, htd, hke, hnz⟩)
            · exact Or.inr ⟨dk', ldirs', hm', sdir', hsd, t, htm, tdir, htd,
                hke, hnz⟩

/-- **C4.** `ftl_analyze` submits to the analyzer exactly the matched
set: a `(device, target locale, filename)` call happens iff the device
key has a source-locale directory (a device without one is skipped
entirely), the target locale is configured and has a directory for the
device (a missing one skips only that pair), and the filename is a
case-insensitive `.png` present in *both* directories; a skipped-count
report exists iff both directories exist and the symmetric difference
is nonempty, and its count is that symmetric difference's size — so
one-sided files are never compared, only counted. -/
theorem ftl_matching (env : Env) (gemini : Str → Str → Str) (fs : FS)
    (root srcLoc : Str) (targets : List Str) (hkey : keyOk env)
    (d t f : Str) (n : Nat) :
    ((⟨d, t, f⟩ : FtlCall)
        ∈ (ftlAnalyze env gemini fs root srcLoc targets).calls
      ↔ fs.isdir root = true
        ∧ ∃ ldirs, (d, ldirs) ∈ groupDeviceDirs fs root
          ∧ ∃ sdir, alGet ldirs srcLoc = some sdir
          ∧ t ∈ targets
          ∧ ∃ tdir, alGet ldirs t = some tdir
          ∧ f ∈ pngList fs sdir ∧ f ∈ pngList fs tdir)
    ∧ ((⟨d, t, n⟩ : FtlSkip)
        ∈ (ftlAnalyze env gemini fs root srcLoc targets).skips
      ↔ fs.isdir root = true
        ∧ ∃ ldirs, (d, ldirs) ∈ groupDeviceDirs fs root
          ∧ ∃ sdir, alGet ldirs srcLoc = some sdir
          ∧ t ∈ targets
          ∧ ∃ tdir, alGet ldirs t = some tdir
          ∧ n = skipCount (pngList fs sdir) (pngList fs tdir)
          ∧ skipCount (pngList fs sdir) (pngList fs tdir) ≠ 0) := by
  cases hdir : fs.isdir root with
  | false =>
    have hred : ftlAnalyze env gemini fs root srcLoc targets
        = { issues := [], calls := [], skips := [], err := some (fnfMsg root) } := by
      rw [ftlAnalyze, if_neg]
      rw [hdir]
      exact Bool.false_ne_true
    rw [hred]
    constructor
    · constructor
      · intro hc
        cases hc
      · rintro ⟨hd, _⟩
        cases hd
    · constructor
      · intro hk
        cases hk
      · rintro ⟨hd, _⟩
        cases hd
  | true =>
    have hred : ftlAnalyze env gemini fs root srcLoc targets
        = ftlDevices env gemini fs srcLoc targets (groupDeviceDirs fs root)
            { issues := [], calls := [], skips := [], err := none } := by
      rw [ftlAnalyze, hdir, if_pos rfl]
    rw [hred]
    obtain ⟨_, h2, h3⟩ := ftlDevices_spec env gemini hkey fs srcLoc targets
      (groupDeviceDirs fs root) { issues := [], calls := [], skips := [], err := none }
      rfl
    constructor
    · rw [h2]
      simp only [List.not_mem_nil, false_or]
      constructor
      · rintro ⟨dk, ldirs, hm, sdir, hsd, t', htm, tdir, htd, f', hf1, hf2, he⟩
        injection he with e1 e2 e3
        subst e1; subst e2; subst e3
        exact ⟨trivial, ldirs, hm, sdir, hsd, htm, tdir, htd, hf1, hf2⟩
      · rintro ⟨_, ldirs, hm, sdir, hsd, htm, tdir, htd, hf1, hf2⟩
        exact ⟨d, ldirs, hm, sdir, hsd, t, htm, tdir, htd, f, hf1, hf2, rfl⟩
    · rw [h3]
      simp only [List.not_mem_nil, false_or]
      constructor
      · rintro ⟨dk, ldirs, hm, sdir, hsd, t', htm, tdir, htd, he, hnz⟩
        injection he with e1 e2 e3
        subst e1; subst e2; subst e3
        exact ⟨trivial, ldirs, hm, sdir, hsd, htm, tdir, htd, rfl, hnz⟩
      · rintro ⟨_, ldirs, hm, sdir, hsd, htm, tdir, htd, hne, hnz⟩
        subst hne
        exact ⟨d, ldirs, hm, sdir, hsd, t, htm, tdir, htd, rfl, hnz⟩

/-- Concrete filesystem for the C4 witness: one device in two locales,
source pngs `{a.png, b.png}`, target pngs `{b.png, c.png}`. -/
def witnessFS : FS :=
  { listdir := fun p =>
      if p = str "/s" then [str "starlte-29-en-portrait", str "starlte-29-fr-portrait"]
      else if p = str "/s/starlte-29-en-portrait" then [str "a.png", str "b.png"]
      else if p = str "/s/starlte-29-fr-portrait" then [str "b.png", str "c.png"]
      else [],
    isdir := fun p =>
      decide (p ∈ [str "/s", str "/s/starlte-29-en-portrait",
        str "/s/starlte-29-fr-portrait"]) }

/-- Witness for C4 at the spec's matching example: only `b.png` is
called, and two files are skipped. -/
theorem ftl_matching_witness :
    ((⟨str "starlte-29-portrait", str "fr", str "b.png"⟩ : FtlCall)
        ∈ (ftlAnalyze envWithKey (fun _ _ => str "ok") witnessFS (str "/s")
            (str "en") [str "fr"]).calls
      ↔ witnessFS.isdir (str "/s") = true
        ∧ ∃ ldirs, (str "starlte-29-portrait", ldirs)
              ∈ groupDeviceDirs witnessFS (str "/s")
          ∧ ∃ sdir, alGet ldirs (str "en") = some sdir
          ∧ str "fr" ∈ [str "fr"]
          ∧ ∃ tdir, alGet ldirs (str "fr") = some tdir
          ∧ str "b.png" ∈ pngList witnessFS sdir
          ∧ str "b.png" ∈ pngList witnessFS tdir)
    ∧ ((⟨str "starlte-29-portrait", str "fr", 2⟩ : FtlSkip)
        ∈ (ftlAnalyze envWithKey (fun _ _ => str "ok") witnessFS (str "/s")
            (str "en") [str "fr"]).skips
      ↔ witnessFS.isdir (str "/s") = true
        ∧ ∃ ldirs, (str "starlte-29-portrait", ldirs)
              ∈ groupDeviceDirs witnessFS (str "/s")
          ∧ ∃ sdir, alGet ldirs (str "en") = some sdir
          ∧ str "fr" ∈ [str "fr"]
          ∧ ∃ tdir, alGet ldirs (str "fr") = some tdir
          ∧ 2 = skipCount (pngList witnessFS sdir) (pngList witnessFS tdir)
          ∧ skipCount (pngList witnessFS sdir) (pngList witnessFS tdir) ≠ 0) :=
  ftl_matching envWithKey (fun _ _ => str "ok") witnessFS (str "/s") (str "en")
    [str "fr"] ⟨str "k", rfl, by decide⟩ (str "starlte-29-portrait") (str "fr")
    (str "b.png") 2

/-- **C10.** A missing (or non-directory) screenshots root makes
`ftl_analyze` raise `FileNotFoundError` immediately: no grouping is
consulted, no analyzer call and no skip report is ever produced. -/
theorem ftl_missing_dir (env : Env) (gemini : Str → Str → Str) (fs : FS)
    (root srcLoc : Str) (targets : List Str) (h : fs.isdir root = false) :
    ftlAnalyze env gemini fs root srcLoc targets
      = { issues := [], calls := [], skips := [], err := some (fnfMsg root) } := by
  rw [ftlAnalyze, if_neg]
  rw [h]
  exact Bool.false_ne_true

/-- Witness for C10 on a filesystem with no directories at all. -/
theorem ftl_missing_dir_witness :
    ftlAnalyze envWithKey (fun _ _ => str "ok") ⟨fun _ => [], fun _ => false⟩
        (str "/nope") (str "en") [str "fr"]
      = { issues := [], calls := [], skips := [],
          err := some (fnfMsg (str "/nope")) } :=
  ftl_missing_dir envWithKey (fun _ _ => str "ok") ⟨fun _ => [], fun _ => false⟩
    (str "/nope") (str "en") [str "fr"] rfl

/-- Witness for the amended C6. -/
theorem missing_key_amended_witness :
    analyzeLocalization envEmpty (fun _ _ => str "x") (str "a") (str "b")
      = .error keyErrMsg
    ∧ ((crawl witnessCfgNoKey 2).crashed = some keyErrMsg
       ∨ ∀ r l, CrawlEvent.analyzeCall r l ∉ (crawl witnessCfgNoKey 2).trace)
    ∧ ((∀ r l, CrawlEvent.analyzeCall r l ∉ (crawl witnessCfgNoKey 2).trace) →
        (crawl witnessCfgNoKey 2).crashed = none) :=
  missing_key_amended envEmpty (fun _ _ => str "x") (str "a") (str "b")
    witnessCfgNoKey 2 rfl rfl

end Prism
